import Mathlib

/-!
Verification of the BrickMap tree engine of the OpenDSU "bar" repository
(src/lib/BrickMapMixin.js), as a shallow embedding in Lean.

Conventions of the embedding:

* A virtual path string p is represented by its raw JavaScript split,
  p.split("/"), i.e. a nonempty list of slash-free segments
  (the split of "" is [""], the split of "/" is ["", ""]).  All
  path-taking operations receive this segment-list representation.
* JavaScript in-place mutation of the node returned by a traversal is
  rendered as a pure rebuild of the tree along the traversed path.
* Machine timestamps (new Date().toUTCString()) are nondeterministic,
  so every mutating operation takes the current timestamp as an
  explicit string argument ts.
* pskPath.normalize comes from the external swarmutils package, which
  is not part of this repository; it is modelled from the spec (see
  normSegs below).
-/

/-- The value held by the optional "key" field of a brick reference.
In JavaScript this field is set from the caller-supplied encryptionKey
and can be a binary buffer, a plain object of buffer shape (for example
produced by a JSON clone of a buffer), or a string. -/
inductive KeyVal where
  | buf (data : List Nat)
  | bufShape (data : List Nat)
  | strv (s : String)
  deriving DecidableEq

/-- A brick reference as built by BrickMapMixin.add: the fields
checkSum and hashLink are always present, size and key are optional
(source lines 355-365). -/
structure BrickRef where
  checkSum : String
  hashLink : String
  size : Option Nat := none
  key : Option KeyVal := none
  deriving DecidableEq

/-- The errors thrown synchronously by the tree operations, plus the
JavaScript TypeError raised by a property access on undefined. -/
inductive JsErr where
  | emptyPath
  | pathNotFound
  | isFolder
  | srcNotFound
  | invalidRootPath
  | missingFolderName
  | folderInFile
  | alreadyExists
  | typeError
  deriving DecidableEq

/-- The trailingNodeType option of createNodesFromPath. -/
inductive Trailing where
  | child
  | parent
  deriving DecidableEq

mutual
/-- A BrickMap tree node, mirroring the duck-typed JavaScript objects:
metadata is an insertion-ordered string map (values modelled as
strings, which covers the timestamps the code writes), and the items
and hashLinks fields are each either absent (undefined) or present.
A node with items present is what nodeIsDirectory recognises as a
directory; file nodes carry hashLinks, and some operations (for
example truncateNode) can leave both fields present on one node. -/
inductive JsNode where
  | mk (metadata : List (String × String)) (items : Option Entries)
      (hashLinks : Option (List BrickRef))

/-- The items mapping of a directory node: an insertion-ordered list
of name/node pairs, mirroring a JavaScript object used as a map. -/
inductive Entries where
  | nil
  | cons (name : String) (node : JsNode) (rest : Entries)
end

def JsNode.metadata : JsNode → List (String × String)
  | .mk m _ _ => m

def JsNode.items : JsNode → Option Entries
  | .mk _ i _ => i

def JsNode.hashLinks : JsNode → Option (List BrickRef)
  | .mk _ _ h => h

/-- Lookup in an items mapping (JavaScript property read). -/
def Entries.lookup (name : String) : Entries → Option JsNode
  | .nil => none
  | .cons n v r => if n = name then some v else Entries.lookup name r

/-- Property write on an items mapping: replaces the value at an
existing name in place, otherwise appends the new name at the end
(JavaScript object insertion order). -/
def Entries.set (name : String) (node : JsNode) : Entries → Entries
  | .nil => .cons name node .nil
  | .cons n v r =>
    if n = name then .cons n node r else .cons n v (Entries.set name node r)

/-- Property write on a metadata object: replace in place or append,
as for Entries.set. -/
def updAssoc : List (String × String) → String → String → List (String × String)
  | [], k, v => [(k, v)]
  | (k₀, v₀) :: rest, k, v =>
    if k₀ = k then (k₀, v) :: rest else (k₀, v₀) :: updAssoc rest k v

/-- The JavaScript delete operator on a metadata object: removes the
property.  A JavaScript object holds a key at most once; on the
association lists with a duplicated key, which no operation ever
builds, this removes every occurrence. -/
def delAssoc : List (String × String) → String → List (String × String)
  | [], _ => []
  | (k₀, v₀) :: rest, k =>
    if k₀ = k then delAssoc rest k else (k₀, v₀) :: delAssoc rest k

/-- Property read on a metadata object. -/
def mLookup (k : String) : List (String × String) → Option String
  | [] => none
  | (k₀, v) :: r => if k₀ = k then some v else mLookup k r

/-- JavaScript truthiness of an optionally-present string property:
undefined and the empty string are falsy. -/
def metaTruthy : Option String → Bool
  | none => false
  | some s => s ≠ ""

/-- Modelled from the spec: pskPath.normalize of the external
swarmutils package (not part of this repository), expressed on the
segment-list representation of paths.  Per sections 4.1, 6 and 8 of
the spec, normalization collapses leading, trailing and empty
segments, normalizing the empty string yields the empty string, and
the empty string and the string consisting of one slash both denote
the root (the latter is what the check against "/" inside
getDeepestNode, source line 296, recognises).  On segment lists: the
split of the normalized path keeps the nonempty segments; when none
remain, the result is the split of "" (namely a single empty segment)
if the input was the split of "", and the split of "/" (two empty
segments) otherwise. -/
def normSegs (raw : List String) : List String :=
  let f := raw.filter (fun s => s ≠ "")
  if f = [] then (if raw = [""] then [""] else ["", ""]) else f

/-- The split of the string obtained by joining a segment list with
slashes: joining the empty list gives the empty string, whose split is
a single empty segment; any other list of slash-free segments splits
back to itself.  Used where the source joins segments into a string
(dirname, source line 202) that a callee then splits again. -/
def splitOfJoin (l : List String) : List String :=
  if l = [] then [""] else l

/-- nodeIsDeleted (source line 218): presence of the deletedAt
property, even with an empty-string value. -/
def nodeIsDeleted (n : JsNode) : Bool :=
  (mLookup "deletedAt" n.metadata).isSome

/-- nodeIsDirectory (source line 226): presence of the items
property. -/
def nodeIsDirectory (n : JsNode) : Bool :=
  n.items.isSome

/-- Whether automatic timestamping is on: updateTimeMetadata (source
line 42) tests the truthiness of header.metadata.createdAt.  None of
the walking or node-level operations ever writes or removes the
createdAt property of the header itself, so the flag is constant
within one operation and is computed once at its start. -/
def tsOn (h : JsNode) : Bool :=
  metaTruthy (mLookup "createdAt" h.metadata)

/-- updateTimeMetadata (source lines 40-45): writes the timestamp to
the given metadata property of the target when timestamping is on. -/
def updateTimeMetadata (tsn : Bool) (ts : String) (prop : String) (n : JsNode) : JsNode :=
  if tsn then .mk (updAssoc n.metadata prop ts) n.items n.hashLinks else n

/-- The JavaScript statement delete node.metadata.deletedAt, used by
createNodesFromPath and others to resurrect a node. -/
def clearDeleted (n : JsNode) : JsNode :=
  .mk (delAssoc n.metadata "deletedAt") n.items n.hashLinks

/-- deleteNode (source lines 233-241): stamp deletedAt, then clear the
items of a directory, or otherwise assign an empty hashLinks array. -/
def deleteNode (tsn : Bool) (ts : String) (n : JsNode) : JsNode :=
  let n := updateTimeMetadata tsn ts "deletedAt" n
  if nodeIsDirectory n then .mk n.metadata (some .nil) n.hashLinks
  else .mk n.metadata n.items (some [])

/-- truncateNode (source lines 246-254): remove deletedAt, stamp
updatedAt, clear the items of a directory, and unconditionally assign
an empty hashLinks array (the source has no early return here, so even
a directory node gains a hashLinks property). -/
def truncateNode (tsn : Bool) (ts : String) (n : JsNode) : JsNode :=
  let n := clearDeleted n
  let n := updateTimeMetadata tsn ts "updatedAt" n
  let n := if nodeIsDirectory n then JsNode.mk n.metadata (some .nil) n.hashLinks else n
  .mk n.metadata n.items (some [])

/-- appendBrick (source lines 65-68): stamp updatedAt, then push onto
node.hashLinks.  Pushing onto an absent hashLinks property (the node
is a directory) raises a TypeError after the stamp has been made. -/
def appendBrick (tsn : Bool) (ts : String) (brickObj : BrickRef) (n : JsNode) :
    JsNode × Option JsErr :=
  let n := updateTimeMetadata tsn ts "updatedAt" n
  match n.hashLinks with
  | some ls => (.mk n.metadata n.items (some (ls ++ [brickObj])), none)
  | none => (n, some .typeError)

/-- navigate (source lines 263-285): walk the given segments from the
given node, skipping empty segments, failing when a segment is absent
from the current directory's items, and descending only when the named
child is itself a directory (a file-valued segment leaves the current
parent unchanged, the behaviour flagged as open question 1 in the
spec).  The starting node is the header, which always carries items;
a node without items cannot be descended into, so the items-absent
case below is unreachable from the operations. -/
def navigate (n : JsNode) : List String → Option JsNode
  | [] => some n
  | s :: rest =>
    if s = "" then navigate n rest
    else
      match n.items with
      | none => none
      | some es =>
        match es.lookup s with
        | none => none
        | some child =>
          if nodeIsDirectory child then navigate child rest else navigate n rest

/-- getDeepestNode (source lines 294-310) on the segment-list
representation: normalize, answer the header for the root path "/",
otherwise navigate the dirname and read the basename entry of the
reached parent. -/
def getDeepestNode (h : JsNode) (raw : List String) : Option JsNode :=
  let segs := normSegs raw
  if segs = ["", ""] then some h
  else
    let filename := segs.getLastD ""
    let dirSegs := splitOfJoin segs.dropLast
    match navigate h dirSegs with
    | none => none
    | some parent =>
      match parent.items with
      | none => none
      | some es => es.lookup filename

/-- The pure rendering of an in-place mutation of the node that
getDeepestNode would return: walk exactly as navigate does, and at the
end replace the basename entry of the reached parent by the image of
the mutator.  Returns none exactly when getDeepestNode finds no node,
in which case the callers leave the tree unchanged or raise their
not-found error. -/
def navModify (name : String) (f : JsNode → JsNode) (n : JsNode) :
    List String → Option JsNode
  | [] =>
    (match n.items with
     | none => none
     | some es =>
       match es.lookup name with
       | none => none
       | some child => some (.mk n.metadata (some (es.set name (f child))) n.hashLinks))
  | s :: rest =>
    if s = "" then navModify name f n rest
    else
      match n.items with
      | none => none
      | some es =>
        match es.lookup s with
        | none => none
        | some child =>
          if nodeIsDirectory child then
            (navModify name f child rest).map
              (fun child₂ => JsNode.mk n.metadata (some (es.set s child₂)) n.hashLinks)
          else navModify name f n rest

/-- In-place mutation of the node addressed by getDeepestNode, at the
whole-path level: mirrors getDeepestNode including the root case. -/
def modifyDeepest (f : JsNode → JsNode) (h : JsNode) (raw : List String) :
    Option JsNode :=
  let segs := normSegs raw
  if segs = ["", ""] then some (f h)
  else
    let filename := segs.getLastD ""
    let dirSegs := splitOfJoin segs.dropLast
    navModify filename f h dirSegs

/-- createFileNode (source lines 116-123) and createDirectoryNode
(source lines 129-136): a fresh node of the requested kind, carrying a
createdAt stamp when timestamping is on. -/
def newNode (tsn : Bool) (ts : String) : Trailing → JsNode
  | .child => .mk (if tsn then [("createdAt", ts)] else []) none (some [])
  | .parent => .mk (if tsn then [("createdAt", ts)] else []) (some .nil) none

/-- One loop iteration of createNodesFromPath before the break test
(source lines 164-172): reading parentNode.items raises a TypeError
when the parent has no items property (the walk descended into a file
on the previous iteration); otherwise the deletedAt mark of the
existing child of that name and of the parent itself are removed. -/
def walkVisit (key : String) (parent : JsNode) : Option JsNode :=
  match parent.items with
  | none => none
  | some es =>
    let es₂ :=
      match es.lookup key with
      | some child => es.set key (clearDeleted child)
      | none => es
    some (.mk (delAssoc parent.metadata "deletedAt") (some es₂) parent.hashLinks)

/-- The tail of createNodesFromPath after the loop breaks (source
lines 185-193): create the trailing node of the requested kind when
the name is absent, then apply the caller's in-place mutation to the
trailing node (the source returns the node and the caller mutates it;
here the mutation is passed in as f). -/
def afterLoop (tsn : Bool) (ts : String) (tr : Trailing)
    (f : JsNode → JsNode × Option JsErr) (parent : JsNode) (key : String) :
    JsNode × Option JsErr :=
  match parent.items with
  | none => (parent, some .typeError)
  | some es =>
    let es₂ :=
      match es.lookup key with
      | some _ => es
      | none => es.set key (newNode tsn ts tr)
    match es₂.lookup key with
    | some node =>
      let res := f node
      (.mk parent.metadata (some (es₂.set key res.1)) parent.hashLinks, res.2)
    | none => (parent, some .typeError)

/-- The creation of a missing intermediate directory inside one loop
iteration of createNodesFromPath (source lines 179-182): when the name
is absent from the parent's items a directory node is created there,
otherwise nothing changes. -/
def ensureDir (tsn : Bool) (ts : String) (key : String) (p : JsNode) : JsNode :=
  match p.items with
  | some es =>
    match es.lookup key with
    | some _ => p
    | none =>
      JsNode.mk p.metadata (some (es.set key (newNode tsn ts .parent))) p.hashLinks
  | none => p

/-- createNodesFromPath (source lines 147-194) on the split of the
path, combined with the caller's mutation f of the returned trailing
node.  The while loop shifts one segment per iteration, shifting a
second time when the first shift gives an empty segment; when that
second shift runs off the end, nodeName is undefined and the following
property accesses coerce it to the string "undefined".  Intermediate
missing names become directory nodes; descending into an existing file
makes the next iteration's items access raise a TypeError, with all
mutations made so far kept (materialization is not atomic, spec
section 9 note 3). -/
def createWalk (tsn : Bool) (ts : String) (tr : Trailing)
    (f : JsNode → JsNode × Option JsErr) (parent : JsNode) :
    List String → JsNode × Option JsErr
  | [] => afterLoop tsn ts tr f parent "undefined"
  | s :: rest =>
    if s = "" then
      match rest with
      | [] =>
        (match walkVisit "undefined" parent with
         | none => (parent, some .typeError)
         | some parent₂ => afterLoop tsn ts tr f parent₂ "undefined")
      | t :: r =>
        (match walkVisit t parent with
         | none => (parent, some .typeError)
         | some parent₂ =>
           if r = [] then afterLoop tsn ts tr f parent₂ t
           else
             let parent₃ := ensureDir tsn ts t parent₂
             match parent₃.items with
             | some es =>
               match es.lookup t with
               | some child =>
                 let res := createWalk tsn ts tr f child r
                 (JsNode.mk parent₃.metadata (some (es.set t res.1)) parent₃.hashLinks,
                  res.2)
               | none => (parent₃, some .typeError)
             | none => (parent₃, some .typeError))
    else
      match walkVisit s parent with
      | none => (parent, some .typeError)
      | some parent₂ =>
        if rest = [] then afterLoop tsn ts tr f parent₂ s
        else
          let parent₃ := ensureDir tsn ts s parent₂
          match parent₃.items with
          | some es =>
            match es.lookup s with
            | some child =>
              let res := createWalk tsn ts tr f child rest
              (JsNode.mk parent₃.metadata (some (es.set s res.1)) parent₃.hashLinks, res.2)
            | none => (parent₃, some .typeError)
          | none => (parent₃, some .typeError)

/-- The caller-facing brick descriptor accepted by add (source lines
349-365): checkSum and hashLink, an optional size and an optional
encryptionKey. -/
structure BrickInput where
  checkSum : String
  hashLink : String
  size : Option Nat := none
  encryptionKey : Option KeyVal := none
  deriving DecidableEq

/-- JavaScript truthiness of a key value: objects are always truthy,
a string is truthy when nonempty. -/
def keyTruthy : KeyVal → Bool
  | .strv s => s ≠ ""
  | _ => true

/-- The brickObj built by add (source lines 355-365): size is copied
only when truthy (a zero size is dropped), the key only when the
encryptionKey is truthy. -/
def mkBrickObj (b : BrickInput) : BrickRef :=
  ⟨b.checkSum, b.hashLink,
   match b.size with
   | some n => if n ≠ 0 then some n else none
   | none => none,
   match b.encryptionKey with
   | some k => if keyTruthy k then some k else none
   | none => none⟩

/-- add (source lines 349-373): reject the empty normalized path,
otherwise materialize the file node and append the brick reference;
the node's deletedAt was already removed during the walk, and the
explicit truthiness-guarded removal in add is repeated faithfully. -/
def addOp (ts : String) (raw : List String) (b : BrickInput) (h : JsNode) :
    JsNode × Option JsErr :=
  let segs := normSegs raw
  if segs = [""] then (h, some .emptyPath)
  else
    let tsn := tsOn h
    createWalk tsn ts .child
      (fun n =>
        let n := if metaTruthy (mLookup "deletedAt" n.metadata) then clearDeleted n else n
        appendBrick tsn ts (mkBrickObj b) n) h segs

/-- delete (source lines 379-390): normalize, fetch the deepest node,
return silently when it is absent or already tombstoned, otherwise
tombstone it in place. -/
def deleteOp (ts : String) (raw : List String) (h : JsNode) : JsNode :=
  let segs := normSegs raw
  match getDeepestNode h segs with
  | none => h
  | some n =>
    if nodeIsDeleted n then h
    else (modifyDeepest (deleteNode (tsOn h) ts) h segs).getD h

/-- emptyList (source lines 496-503): truncate the node at the path,
error when it is absent. -/
def emptyListOp (ts : String) (raw : List String) (h : JsNode) :
    JsNode × Option JsErr :=
  match getDeepestNode h raw with
  | none => (h, some .pathNotFound)
  | some _ => ((modifyDeepest (truncateNode (tsOn h) ts) h raw).getD h, none)

/-- setMetadata (source lines 758-764): replace the node's whole
metadata by a deep copy of the argument (for string-valued metadata
the JSON round trip is the identity). -/
def setMetadataOp (raw : List String) (md : List (String × String)) (h : JsNode) :
    JsNode × Option JsErr :=
  match getDeepestNode h raw with
  | none => (h, some .pathNotFound)
  | some _ =>
    ((modifyDeepest (fun n => .mk md n.items n.hashLinks) h raw).getD h, none)

/-- updateMetadata (source lines 772-779): set one metadata key in
place. -/
def updateMetadataOp (raw : List String) (k v : String) (h : JsNode) :
    JsNode × Option JsErr :=
  match getDeepestNode h raw with
  | none => (h, some .pathNotFound)
  | some _ =>
    ((modifyDeepest (fun n => .mk (updAssoc n.metadata k v) n.items n.hashLinks) h raw).getD h,
     none)

/-- replaceFirstBrick (source lines 92-98) through getNodeFromPath
(source lines 73-86): materialize the node, clear a truthy deletedAt,
stamp updatedAt, and substitute the first element of hashLinks when
the sequence is nonempty; reading the length of an absent hashLinks
property (a directory node) raises a TypeError. -/
def replaceFirstBrickOp (ts : String) (raw : List String) (brick : BrickRef)
    (h : JsNode) : JsNode × Option JsErr :=
  let segs := normSegs raw
  if segs = [""] then (h, some .emptyPath)
  else
    let tsn := tsOn h
    createWalk tsn ts .child
      (fun n =>
        let n := if metaTruthy (mLookup "deletedAt" n.metadata) then clearDeleted n else n
        let n := updateTimeMetadata tsn ts "updatedAt" n
        match n.hashLinks with
        | some (_ :: rest) => (.mk n.metadata n.items (some (brick :: rest)), none)
        | some [] => (n, none)
        | none => (n, some .typeError)) h segs

/-- replaceLastBrick (source lines 104-110), as replaceFirstBrick but
substituting the last element. -/
def replaceLastBrickOp (ts : String) (raw : List String) (brick : BrickRef)
    (h : JsNode) : JsNode × Option JsErr :=
  let segs := normSegs raw
  if segs = [""] then (h, some .emptyPath)
  else
    let tsn := tsOn h
    createWalk tsn ts .child
      (fun n =>
        let n := if metaTruthy (mLookup "deletedAt" n.metadata) then clearDeleted n else n
        let n := updateTimeMetadata tsn ts "updatedAt" n
        match n.hashLinks with
        | some [] => (n, none)
        | some ls => (.mk n.metadata n.items (some (ls.dropLast ++ [brick])), none)
        | none => (n, some .typeError)) h segs

/-- createNode (source lines 392-418): reject the root path, resolve
the parent directory of the target, reject an empty trailing name, and
when the dirname string is truthy and the parent exists run the two
conflict checks (parent must be a directory; for trailingNodeType
parent the name must not be taken) before materializing. -/
def createNodeOp (ts : String) (tr : Trailing) (raw : List String) (h : JsNode) :
    JsNode × Option JsErr :=
  let segs := normSegs raw
  if segs = ["", ""] then (h, some .invalidRootPath)
  else
    let dirName := segs.getLastD ""
    let dirSegs := splitOfJoin segs.dropLast
    let parentDir := getDeepestNode h dirSegs
    if dirName = "" then (h, some .missingFolderName)
    else if segs.dropLast = [] then createWalk (tsOn h) ts tr (fun n => (n, none)) h segs
    else
      match parentDir with
      | none => createWalk (tsOn h) ts tr (fun n => (n, none)) h segs
      | some p =>
        if nodeIsDirectory p = false then (h, some .folderInFile)
        else if ((p.items.getD .nil).lookup dirName).isSome && tr == .parent then
          (h, some .alreadyExists)
        else createWalk (tsOn h) ts tr (fun n => (n, none)) h segs

/-- createFolder (source lines 425-427). -/
def createFolderOp (ts : String) (raw : List String) (h : JsNode) :
    JsNode × Option JsErr :=
  createNodeOp ts .parent raw h

/-- createFile (source lines 429-431). -/
def createFileOp (ts : String) (raw : List String) (h : JsNode) :
    JsNode × Option JsErr :=
  createNodeOp ts .child raw h

/-- The JSON clone of a key value performed without the load reviver:
serializing a binary buffer produces the plain marker object, which
parses back as a plain object, not a buffer. -/
def cloneKey : KeyVal → KeyVal
  | .buf d => .bufShape d
  | .bufShape d => .bufShape d
  | .strv s => .strv s

/-- The JSON clone of one brick reference. -/
def cloneBrick (b : BrickRef) : BrickRef :=
  ⟨b.checkSum, b.hashLink, b.size, b.key.map cloneKey⟩

mutual

/-- JSON.parse(JSON.stringify(node)) without a reviver, as used by
copy (source lines 541 and 545), setMetadata and getState: the
identity on all structure except that buffer-valued keys come back as
plain marker objects. -/
def cloneNode : JsNode → JsNode
  | .mk m none none => .mk m none none
  | .mk m none (some ls) => .mk m none (some (ls.map cloneBrick))
  | .mk m (some es) none => .mk m (some (cloneEntries es)) none
  | .mk m (some es) (some ls) => .mk m (some (cloneEntries es)) (some (ls.map cloneBrick))

/-- JSON clone of an items mapping. -/
def cloneEntries : Entries → Entries
  | .nil => .nil
  | .cons n v r => .cons n (cloneNode v) (cloneEntries r)

end

/-- copy (source lines 528-546): the source node must exist;
the destination is materialized with the source's kind, then receives
a JSON clone of the source's items or hashLinks.  In the source the
clone reads the live source node after the destination walk has run;
here the source node is captured before the walk, which agrees with
the source whenever the destination path does not traverse the source
node itself (the walk only rewrites the destination path's entries and
tombstone marks). -/
def copyOp (ts : String) (srcRaw dstRaw : List String) (h : JsNode) :
    JsNode × Option JsErr :=
  match getDeepestNode h srcRaw with
  | none => (h, some .srcNotFound)
  | some srcNode =>
    let tr := if nodeIsDirectory srcNode then Trailing.parent else Trailing.child
    createWalk (tsOn h) ts tr
      (fun dstNode =>
        if nodeIsDirectory srcNode then
          (.mk dstNode.metadata (some (cloneEntries (srcNode.items.getD .nil)))
            dstNode.hashLinks, none)
        else
          (.mk dstNode.metadata dstNode.items
            (some ((srcNode.hashLinks.getD []).map cloneBrick)), none)) h dstRaw

/-- getHashList (source lines 458-473): the empty-path check is on the
raw string before any normalization; a missing node or a directory is
an error, but a tombstoned file is not checked for and yields its
(empty) list of hash links. -/
def getHashListOp (raw : List String) (h : JsNode) : Except JsErr (List String) :=
  if raw = [""] then .error .emptyPath
  else
    match getDeepestNode h raw with
    | none => .error .pathNotFound
    | some n =>
      if nodeIsDirectory n then .error .isFolder
      else .ok ((n.hashLinks.getD []).map (fun b => b.hashLink))

/-- getBricksMeta (source lines 437-451): unlike getHashList this
reports a tombstoned file as not found. -/
def getBricksMetaOp (raw : List String) (h : JsNode) : Except JsErr (List BrickRef) :=
  match getDeepestNode h raw with
  | none => .error .pathNotFound
  | some n =>
    if nodeIsDirectory n then .error .isFolder
    else if nodeIsDeleted n then .error .pathNotFound
    else .ok (n.hashLinks.getD [])

/-- The names of an items mapping, Object.keys. -/
def entryNames : Entries → List String
  | .nil => []
  | .cons n _ r => n :: entryNames r

/-- JavaScript truthiness of an array value: an array is an object and
objects are always truthy, whatever their length. -/
def jsArrayTruthy (_keys : List String) : Bool := true

/-- isEmpty (source lines 479-489): a missing node counts as empty;
for a directory the source computes the negation of the truthiness of
Object.keys(node.items), an array, which is always truthy; for a file
it is emptiness of hashLinks. -/
def isEmptyOp (raw : List String) (h : JsNode) : Bool :=
  match getDeepestNode h raw with
  | none => true
  | some n =>
    match n.items with
    | some es => !(jsArrayTruthy (entryNames es))
    | none => (n.hashLinks.getD []).isEmpty

/-- fileExists (source lines 509-512): node present and not
tombstoned. -/
def fileExistsOp (raw : List String) (h : JsNode) : Bool :=
  match getDeepestNode h raw with
  | none => false
  | some n => !(nodeIsDeleted n)

/-- fileDeleted (source lines 518-521): node present and
tombstoned. -/
def fileDeletedOp (raw : List String) (h : JsNode) : Bool :=
  match getDeepestNode h raw with
  | none => false
  | some n => nodeIsDeleted n

/-- The result of getBrickEncryptionKeySSI: either the identifier
string of the template key (the key identity collaborator is modelled
by its stable string form), the key value found on the brick
reference, or JavaScript undefined. -/
inductive KeyResult where
  | ident (s : String)
  | keyVal (k : KeyVal)
  | undefinedKey
  deriving DecidableEq

/-- getBrickEncryptionKeySSI (source lines 638-644): with no argument,
the template key identifier; otherwise the key property of the
argument, returned unconditionally, so undefined when the brick
reference carries no key. -/
def getBrickEncryptionKeySSI (templateId : String) : Option BrickRef → KeyResult
  | none => .ident templateId
  | some m =>
    match m.key with
    | some k => .keyVal k
    | none => .undefinedKey

/-- initialize (source lines 23-38) with no prior header: an empty
directory root whose metadata carries createdAt unless
options.preventTimestamp is set. -/
def initHeader (preventTimestamp : Bool) (ts : String) : JsNode :=
  .mk (if preventTimestamp then [] else [("createdAt", ts)]) (some .nil) none

example : Entries.lookup "a" (.cons "a" (.mk [] none none) .nil)
    = some (.mk [] none none) := rfl

example : normSegs ["", "a", "", "b", ""] = ["a", "b"] := rfl

example : normSegs ["", ""] = ["", ""] := rfl

example : normSegs [""] = [""] := rfl

example : cloneNode (.mk [("a", "b")] none (some [⟨"c", "h", none, some (.buf [1, 2])⟩]))
    = .mk [("a", "b")] none (some [⟨"c", "h", none, some (.bufShape [1, 2])⟩]) := rfl

example : normSegs ["", "a", "", "b", ""] = ["a", "b"] := rfl

example : normSegs ["", ""] = ["", ""] := rfl

example : normSegs [""] = [""] := rfl

example :
    (let h₀ := initHeader false "t0"
     let h₁ := (addOp "t1" ["a", "b", "file.txt"] ⟨"c1", "h1", none, none⟩ h₀).1
     let h₂ := deleteOp "t2" ["a", "b", "file.txt"] h₁
     getHashListOp ["a", "b", "file.txt"] h₂) = .ok [] := rfl

example :
    (let h₀ := initHeader false "t0"
     let h₁ := (addOp "t1" ["a", "b", "file.txt"] ⟨"c1", "h1", none, none⟩ h₀).1
     getHashListOp ["a", "b", "file.txt"] h₁) = .ok ["h1"] := rfl

example :
    (let h₀ := initHeader false "t0"
     let h₁ := (addOp "t1" ["a", "b", "file.txt"] ⟨"c1", "h1", none, none⟩ h₀).1
     let h₂ := deleteOp "t2" ["a", "b", "file.txt"] h₁
     (fileDeletedOp ["a", "b", "file.txt"] h₂,
      fileExistsOp ["a", "b", "file.txt"] h₂,
      getBricksMetaOp ["a", "b", "file.txt"] h₂)) = (true, false, .error .pathNotFound) := rfl

mutual
/-- A JavaScript value as JSON serialization sees it: strings, numbers
(only naturals occur here), arrays, objects with insertion-ordered
string fields, and binary buffer instances. -/
inductive JsVal where
  | str (s : String)
  | num (n : Nat)
  | arr (xs : JsArr)
  | obj (fs : JsObj)
  | buf (data : List Nat)

/-- A JavaScript array value. -/
inductive JsArr where
  | nil
  | cons (v : JsVal) (rest : JsArr)

/-- The fields of a JavaScript object value, in insertion order. -/
inductive JsObj where
  | nil
  | cons (k : String) (v : JsVal) (rest : JsObj)
end

def JsObj.length : JsObj → Nat
  | .nil => 0
  | .cons _ _ r => 1 + JsObj.length r

def JsObj.lookup (k : String) : JsObj → Option JsVal
  | .nil => none
  | .cons k₀ v r => if k₀ = k then some v else JsObj.lookup k r

def natsToArr : List Nat → JsArr
  | [] => .nil
  | n :: r => .cons (.num n) (natsToArr r)

/-- Modelled from the spec: the serialized form of a binary buffer,
an object with exactly a type tag naming the binary-buffer marker and
a data field holding the byte values (spec section 6); the buffer
class itself is external to this repository. -/
def bufMarker (d : List Nat) : JsVal :=
  .obj (.cons "type" (.str "$$.Buffer") (.cons "data" (.arr (natsToArr d)) .nil))

/-- The in-memory JavaScript value of a key field. -/
def keyToJs : KeyVal → JsVal
  | .buf d => .buf d
  | .bufShape d => bufMarker d
  | .strv s => .str s

def sizeField : Option Nat → JsObj → JsObj
  | none, rest => rest
  | some n, rest => .cons "size" (.num n) rest

def keyField : Option KeyVal → JsObj
  | none => .nil
  | some k => .cons "key" (keyToJs k) .nil

/-- The in-memory JavaScript object of one brick reference, fields in
the insertion order used by add: checkSum, hashLink, size, key. -/
def brickToJs (b : BrickRef) : JsVal :=
  .obj (.cons "checkSum" (.str b.checkSum)
    (.cons "hashLink" (.str b.hashLink) (sizeField b.size (keyField b.key))))

def bricksToArr : List BrickRef → JsArr
  | [] => .nil
  | b :: r => .cons (brickToJs b) (bricksToArr r)

def metaToJs : List (String × String) → JsObj
  | [] => .nil
  | (k, v) :: r => .cons k (.str v) (metaToJs r)

mutual
/-- The in-memory JavaScript value of a tree node.  Field order
convention: a pure file node serializes as hashLinks then metadata
(the order createFileNode writes them), a pure directory node as
metadata then items (the order createDirectoryNode writes them), a
node carrying both as metadata, items, hashLinks (a directory that
later gained a hashLinks property). -/
def nodeToJs : JsNode → JsVal
  | .mk m none none => .obj (.cons "metadata" (.obj (metaToJs m)) .nil)
  | .mk m none (some ls) =>
    .obj (.cons "hashLinks" (.arr (bricksToArr ls))
      (.cons "metadata" (.obj (metaToJs m)) .nil))
  | .mk m (some es) none =>
    .obj (.cons "metadata" (.obj (metaToJs m))
      (.cons "items" (.obj (entriesToJs es)) .nil))
  | .mk m (some es) (some ls) =>
    .obj (.cons "metadata" (.obj (metaToJs m))
      (.cons "items" (.obj (entriesToJs es))
        (.cons "hashLinks" (.arr (bricksToArr ls)) .nil)))

/-- The in-memory JavaScript object of an items mapping. -/
def entriesToJs : Entries → JsObj
  | .nil => .nil
  | .cons n v r => .cons n (nodeToJs v) (entriesToJs r)
end

mutual
/-- JSON.stringify followed by JSON.parse without a reviver, as a
transform on value trees: the identity except that buffer instances
serialize to their marker objects (the buffer class's toJSON,
modelled from the spec since the class is external). -/
def jsonStr : JsVal → JsVal
  | .str s => .str s
  | .num n => .num n
  | .buf d => bufMarker d
  | .arr xs => .arr (jsonStrArr xs)
  | .obj fs => .obj (jsonStrObj fs)

def jsonStrArr : JsArr → JsArr
  | .nil => .nil
  | .cons v r => .cons (jsonStr v) (jsonStrArr r)

def jsonStrObj : JsObj → JsObj
  | .nil => .nil
  | .cons k v r => .cons k (jsonStr v) (jsonStrObj r)
end

/-- JavaScript typeof value === "object": objects, arrays and buffers
all answer object. -/
def jsTypeofObject : JsVal → Bool
  | .obj _ => true
  | .arr _ => true
  | .buf _ => true
  | _ => false

def JsArr.length : JsArr → Nat
  | .nil => 0
  | .cons _ r => 1 + JsArr.length r

/-- Object.keys(value).length: fields of an object, indices of an
array or buffer, nothing for primitives. -/
def objKeysLen : JsVal → Nat
  | .obj fs => fs.length
  | .arr xs => xs.length
  | .buf d => d.length
  | _ => 0

/-- Property read value.type or value.data: only plain objects carry
such named fields here (arrays and buffers expose indices). -/
def getProp (k : String) : JsVal → Option JsVal
  | .obj fs => fs.lookup k
  | _ => none

/-- Modelled from the spec: the external buffer class's from, reading
an array of byte values; a non-numeric entry is read as byte 0 (never
reached on states of this model). -/
def arrToNats : JsArr → List Nat
  | .nil => []
  | .cons (.num n) r => n :: arrToNats r
  | .cons _ r => 0 :: arrToNats r

/-- The body of the load reviver (source lines 657-674) applied to the
already-revived value of a field named key: pass anything that is not
an object, does not have exactly two keys, is not tagged with the
buffer marker, or whose data is not an array; otherwise rebuild a
buffer from the data bytes. -/
def bufReviver (v : JsVal) : JsVal :=
  if jsTypeofObject v = false then v
  else if objKeysLen v ≠ 2 then v
  else
    match getProp "type" v with
    | some (.str t) =>
      if t = "$$.Buffer" then
        match getProp "data" v with
        | some (.arr ds) => .buf (arrToNats ds)
        | _ => v
      else v
    | _ => v

mutual
/-- JSON.parse with the load reviver (source lines 657-674, applied at
line 684 and 693), as a bottom-up transform of the parsed tree: every
object field and array element is revived recursively, and the reviver
body fires exactly on fields whose property name is key (array indices
and the top-level call never equal the string key). -/
def reviveVal : JsVal → JsVal
  | .str s => .str s
  | .num n => .num n
  | .buf d => .buf d
  | .arr xs => .arr (reviveArr xs)
  | .obj fs => .obj (reviveObj fs)

def reviveArr : JsArr → JsArr
  | .nil => .nil
  | .cons v r => .cons (reviveVal v) (reviveArr r)

def reviveObj : JsObj → JsObj
  | .nil => .nil
  | .cons k v r =>
    let v₂ := reviveVal v
    .cons k (if k = "key" then bufReviver v₂ else v₂) (reviveObj r)
end

/-- Canonical form of a key after one serialize/load round trip: both
a buffer and a plain marker object come back as a buffer. -/
def canonKey : KeyVal → KeyVal
  | .buf d => .buf d
  | .bufShape d => .buf d
  | .strv s => .strv s

def canonBrick (b : BrickRef) : BrickRef :=
  ⟨b.checkSum, b.hashLink, b.size, b.key.map canonKey⟩

mutual
/-- The node whose in-memory value the load reviver produces from the
serialized form of a given node: identical except for key
canonicalization. -/
def canonNode : JsNode → JsNode
  | .mk m none none => .mk m none none
  | .mk m none (some ls) => .mk m none (some (ls.map canonBrick))
  | .mk m (some es) none => .mk m (some (canonEntries es)) none
  | .mk m (some es) (some ls) => .mk m (some (canonEntries es)) (some (ls.map canonBrick))

/-- Key canonicalization through an items mapping. -/
def canonEntries : Entries → Entries
  | .nil => .nil
  | .cons n v r => .cons n (canonNode v) (canonEntries r)
end

/-- The raw data toBrick stores (source lines 552-557):
JSON.stringify(this.header), represented by the value tree the bytes
parse back to. -/
def toBrickRaw (h : JsNode) : JsVal :=
  jsonStr (nodeToJs h)

/-- The header value load leaves in a fresh BrickMap fed with the
bytes of toBrick: the parse of those bytes under the reviver. -/
def loadRevived (h : JsNode) : JsVal :=
  reviveVal (toBrickRaw h)

/-- getState (source lines 732-734) of a map whose header is the given
node: a JSON clone of the header, as a value tree. -/
def getStateJs (h : JsNode) : JsVal :=
  jsonStr (nodeToJs h)

/-- getState of a map whose header is an already-loaded raw value. -/
def getStateOfVal (v : JsVal) : JsVal :=
  jsonStr v

/-- Lookup of a named child of a node, reading through the optional
items property (undefined when the node has no items). -/
def itemOf (n : JsNode) (a : String) : Option JsNode :=
  match n.items with
  | some es => es.lookup a
  | none => none

/-- One BrickMap mutation call, with the path(s) in segment-list form
and the payload it takes. -/
inductive Op where
  | add (raw : List String) (b : BrickInput)
  | del (raw : List String)
  | emptyL (raw : List String)
  | doCopy (src dst : List String)
  | mkFolder (raw : List String)
  | mkFile (raw : List String)
  | replFirst (raw : List String) (b : BrickRef)
  | replLast (raw : List String) (b : BrickRef)
  | setMeta (raw : List String) (md : List (String × String))
  | updMeta (raw : List String) (k v : String)
  deriving DecidableEq

/-- Run one operation against the header; a thrown error leaves the
tree in whatever (possibly partially mutated) state the operation
reached, exactly as an uncaught JavaScript exception would. -/
def applyOp (ts : String) (h : JsNode) : Op → JsNode
  | .add raw b => (addOp ts raw b h).1
  | .del raw => deleteOp ts raw h
  | .emptyL raw => (emptyListOp ts raw h).1
  | .doCopy s d => (copyOp ts s d h).1
  | .mkFolder raw => (createFolderOp ts raw h).1
  | .mkFile raw => (createFileOp ts raw h).1
  | .replFirst raw b => (replaceFirstBrickOp ts raw b h).1
  | .replLast raw b => (replaceLastBrickOp ts raw b h).1
  | .setMeta raw md => (setMetadataOp raw md h).1
  | .updMeta raw k v => (updateMetadataOp raw k v h).1

/-- Run a sequence of operations, each with the timestamp current when
it was issued. -/
def runOps : List (String × Op) → JsNode → JsNode
  | [], h => h
  | (ts, op) :: rest, h => runOps rest (applyOp ts h op)

/-- Empty content in the sense of the tombstone invariant: an empty
items mapping when the node is a directory, an empty (or absent)
hashLinks sequence otherwise. -/
def contentEmpty (n : JsNode) : Bool :=
  match n.items with
  | some .nil => true
  | some (.cons _ _ _) => false
  | none => (n.hashLinks.getD []).isEmpty

mutual

/-- The tombstone invariant over a whole tree: every node whose
metadata carries deletedAt has empty content, recursively through all
items. -/
def nodeInv : JsNode → Bool
  | .mk m i hl =>
    (!(nodeIsDeleted (.mk m i hl)) || contentEmpty (.mk m i hl)) &&
      (match i with
       | some es => entriesInv es
       | none => true)

/-- The tombstone invariant over an items mapping. -/
def entriesInv : Entries → Bool
  | .nil => true
  | .cons _ v r => nodeInv v && entriesInv r

end

/-- Metadata carrying none of the three automatic timestamp keys. -/
def noStampsMeta (m : List (String × String)) : Bool :=
  (mLookup "createdAt" m).isNone && (mLookup "updatedAt" m).isNone &&
    (mLookup "deletedAt" m).isNone

mutual

/-- No automatic timestamp key anywhere in the tree, the invariant of
a map initialized with preventTimestamp. -/
def noStampsNode : JsNode → Bool
  | .mk m i _ =>
    noStampsMeta m &&
      (match i with
       | some es => noStampsEntries es
       | none => true)

/-- No automatic timestamp key through an items mapping. -/
def noStampsEntries : Entries → Bool
  | .nil => true
  | .cons _ v r => noStampsNode v && noStampsEntries r

end

/-- A concrete state exercising the copy frame property: on a
preventTimestamp map, add creates the directory x holding the file x/f
with one brick, and copy duplicates the directory x into the
destination y. -/
def copyScenario : JsNode :=
  (copyOp "t2" ["x"] ["y"]
    ((addOp "t1" ["x", "f"] ⟨"cs", "hl", none, none⟩ (initHeader true "t0")).1)).1


theorem Entries.lookup_set_self (es : Entries) (k : String) (v : JsNode) :
    (es.set k v).lookup k = some v := by
  match es with
  | .nil => simp [Entries.set, Entries.lookup]
  | .cons n v₀ r =>
    by_cases hn : n = k
    · simp [Entries.set, hn, Entries.lookup]
    · simp [Entries.set, hn, Entries.lookup, Entries.lookup_set_self r k v]

theorem Entries.lookup_set_ne (es : Entries) {k a : String} (hne : k ≠ a) (v : JsNode) :
    (es.set k v).lookup a = es.lookup a := by
  match es with
  | .nil => simp [Entries.set, Entries.lookup, hne]
  | .cons n v₀ r =>
    by_cases hn : n = k
    · subst hn
      simp [Entries.set, Entries.lookup, hne]
    · simp [Entries.set, hn, Entries.lookup, Entries.lookup_set_ne r hne v]

theorem Entries.set_self_of_lookup (es : Entries) {k : String} {v : JsNode}
    (hl : es.lookup k = some v) : es.set k v = es := by
  match es with
  | .nil => simp [Entries.lookup] at hl
  | .cons n v₀ r =>
    by_cases hn : n = k
    · subst hn
      simp [Entries.lookup] at hl
      simp [Entries.set, hl]
    · simp [Entries.lookup, hn] at hl
      simp [Entries.set, hn, Entries.set_self_of_lookup r hl]

theorem mLookup_updAssoc_self (m : List (String × String)) (k v : String) :
    mLookup k (updAssoc m k v) = some v := by
  induction m with
  | nil => simp [updAssoc, mLookup]
  | cons p r ih =>
    by_cases hn : p.1 = k
    · simp [updAssoc, hn, mLookup]
    · simp [updAssoc, hn, mLookup, ih]

theorem mLookup_updAssoc_ne (m : List (String × String)) {k a : String}
    (hne : k ≠ a) (v : String) : mLookup a (updAssoc m k v) = mLookup a m := by
  induction m with
  | nil => simp [updAssoc, mLookup, hne]
  | cons p r ih =>
    by_cases hn : p.1 = k
    · subst hn
      simp [updAssoc, mLookup, hne, ih]
    · simp [updAssoc, hn, mLookup, ih]

theorem mLookup_delAssoc_self (m : List (String × String)) (k : String) :
    mLookup k (delAssoc m k) = none := by
  induction m with
  | nil => simp [delAssoc, mLookup]
  | cons p r ih =>
    by_cases hn : p.1 = k
    · simp [delAssoc, hn, ih]
    · simp [delAssoc, hn, mLookup, ih]

theorem mLookup_delAssoc_ne (m : List (String × String)) {k a : String}
    (hne : k ≠ a) : mLookup a (delAssoc m k) = mLookup a m := by
  induction m with
  | nil => simp [delAssoc]
  | cons p r ih =>
    by_cases hn : p.1 = k
    · subst hn
      simp [delAssoc, mLookup, hne, ih]
    · simp [delAssoc, hn, mLookup, ih]

theorem normSegs_shape (raw : List String) :
    normSegs raw = [""] ∨ normSegs raw = ["", ""] ∨
      (normSegs raw ≠ [] ∧ ∀ s ∈ normSegs raw, s ≠ "") := by
  by_cases hf : raw.filter (fun s => s ≠ "") = []
  · by_cases hr : raw = [""]
    · left
      simp only [normSegs]
      rw [if_pos hf, if_pos hr]
    · right; left
      simp only [normSegs]
      rw [if_pos hf, if_neg hr]
  · right; right
    simp only [normSegs]
    rw [if_neg hf]
    refine ⟨hf, ?hmem⟩
    intro s hs
    simpa using (List.mem_filter.mp hs).2

theorem normSegs_idem (raw : List String) : normSegs (normSegs raw) = normSegs raw := by
  rcases normSegs_shape raw with h | h | ⟨hne, hall⟩
  · rw [h]; rfl
  · rw [h]; rfl
  · generalize hL : normSegs raw = L at hne hall ⊢
    have h2 : L.filter (fun s => s ≠ "") = L := by
      refine List.filter_eq_self.mpr ?hp
      intro s hs
      simpa using hall s hs
    simp only [normSegs]
    rw [h2, if_neg hne]

theorem navModify_items_isSome (name : String) (f : JsNode → JsNode) :
    ∀ (segs : List String) (n n₂ : JsNode),
      navModify name f n segs = some n₂ → n₂.items.isSome := by
  intro segs
  induction segs with
  | nil =>
    intro n n₂ hmod
    simp only [navModify] at hmod
    cases hi : n.items with
    | none => rw [hi] at hmod; simp at hmod
    | some es =>
      rw [hi] at hmod
      dsimp only at hmod
      cases hl : es.lookup name with
      | none => rw [hl] at hmod; simp at hmod
      | some x =>
        rw [hl] at hmod
        dsimp only at hmod
        simp only [Option.some.injEq] at hmod
        rw [← hmod]
        simp [JsNode.items]
  | cons s rest ih =>
    intro n n₂ hmod
    simp only [navModify] at hmod
    by_cases hs : s = ""
    · rw [if_pos hs] at hmod
      exact ih n n₂ hmod
    · rw [if_neg hs] at hmod
      cases hi : n.items with
      | none => rw [hi] at hmod; simp at hmod
      | some es =>
        rw [hi] at hmod
        dsimp only at hmod
        cases hl : es.lookup s with
        | none => rw [hl] at hmod; simp at hmod
        | some child =>
          rw [hl] at hmod
          dsimp only at hmod
          by_cases hd : nodeIsDirectory child
          · rw [if_pos hd] at hmod
            rcases Option.map_eq_some'.mp hmod with ⟨c₂, _, hc⟩
            rw [← hc]
            simp [JsNode.items]
          · rw [if_neg hd] at hmod
            exact ih n n₂ hmod

theorem itemOf_navModify (name : String) (f : JsNode → JsNode)
    (hf : ∀ x, (f x).items.isSome = x.items.isSome) :
    ∀ (segs : List String) (n n₂ : JsNode),
      navModify name f n segs = some n₂ → ∀ a : String,
        (itemOf n a = none ∧ itemOf n₂ a = none) ∨
          ∃ c c₂, itemOf n a = some c ∧ itemOf n₂ a = some c₂ ∧
            c₂.items.isSome = c.items.isSome := by
  intro segs
  induction segs with
  | nil =>
    intro n n₂ hmod a
    simp only [navModify] at hmod
    cases hi : n.items with
    | none => rw [hi] at hmod; simp at hmod
    | some es =>
      rw [hi] at hmod
      dsimp only at hmod
      cases hl : es.lookup name with
      | none => rw [hl] at hmod; simp at hmod
      | some x =>
        rw [hl] at hmod
        dsimp only at hmod
        simp only [Option.some.injEq] at hmod
        by_cases ha : name = a
        · subst ha
          refine Or.inr ⟨x, f x, ?_, ?_, hf x⟩
          · simp [itemOf, hi, hl]
          · rw [← hmod]; simp [itemOf, JsNode.items, Entries.lookup_set_self]
        · cases hc : itemOf n a with
          | none =>
            refine Or.inl ⟨rfl, ?_⟩
            rw [← hmod]
            simp only [itemOf, JsNode.items]
            rw [Entries.lookup_set_ne es ha (f x)]
            simpa [itemOf, hi] using hc
          | some c =>
            refine Or.inr ⟨c, c, rfl, ?_, rfl⟩
            rw [← hmod]
            simp only [itemOf, JsNode.items]
            rw [Entries.lookup_set_ne es ha (f x)]
            simpa [itemOf, hi] using hc
  | cons s rest ih =>
    intro n n₂ hmod a
    simp only [navModify] at hmod
    by_cases hs : s = ""
    · rw [if_pos hs] at hmod
      exact ih n n₂ hmod a
    · rw [if_neg hs] at hmod
      cases hi : n.items with
      | none => rw [hi] at hmod; simp at hmod
      | some es =>
        rw [hi] at hmod
        dsimp only at hmod
        cases hl : es.lookup s with
        | none => rw [hl] at hmod; simp at hmod
        | some child =>
          rw [hl] at hmod
          dsimp only at hmod
          by_cases hd : nodeIsDirectory child
          · rw [if_pos hd] at hmod
            rcases Option.map_eq_some'.mp hmod with ⟨c₂, hc₂, hc⟩
            by_cases ha : s = a
            · subst ha
              refine Or.inr ⟨child, c₂, ?_, ?_, ?_⟩
              · simp [itemOf, hi, hl]
              · rw [← hc]; simp [itemOf, JsNode.items, Entries.lookup_set_self]
              · rw [navModify_items_isSome name f rest child c₂ hc₂]
                exact (hd).symm ▸ rfl
            · cases hcc : itemOf n a with
              | none =>
                refine Or.inl ⟨rfl, ?_⟩
                rw [← hc]
                simp only [itemOf, JsNode.items]
                rw [Entries.lookup_set_ne es ha c₂]
                simpa [itemOf, hi] using hcc
              | some c =>
                refine Or.inr ⟨c, c, rfl, ?_, rfl⟩
                rw [← hc]
                simp only [itemOf, JsNode.items]
                rw [Entries.lookup_set_ne es ha c₂]
                simpa [itemOf, hi] using hcc
          · rw [if_neg hd] at hmod
            exact ih n n₂ hmod a

@[simp]
theorem JsNode.metadata_mk (m : List (String × String)) (i : Option Entries)
    (hl : Option (List BrickRef)) : (JsNode.mk m i hl).metadata = m := rfl

@[simp]
theorem JsNode.items_mk (m : List (String × String)) (i : Option Entries)
    (hl : Option (List BrickRef)) : (JsNode.mk m i hl).items = i := rfl

@[simp]
theorem JsNode.hashLinks_mk (m : List (String × String)) (i : Option Entries)
    (hl : Option (List BrickRef)) : (JsNode.mk m i hl).hashLinks = hl := rfl

theorem navigate_navModify (name : String) (f : JsNode → JsNode)
    (hf : ∀ x, (f x).items.isSome = x.items.isSome) :
    ∀ (segs : List String) (n p : JsNode) (es : Entries) (x : JsNode),
      navigate n segs = some p → p.items = some es → es.lookup name = some x →
      ∃ n₂, navModify name f n segs = some n₂ ∧
        navigate n₂ segs =
          some (JsNode.mk p.metadata (some (es.set name (f x))) p.hashLinks) := by
  intro segs
  induction segs with
  | nil =>
    intro n p es x hnav hpi hl
    simp only [navigate, Option.some.injEq] at hnav
    subst hnav
    refine ⟨.mk n.metadata (some (es.set name (f x))) n.hashLinks, ?_, ?_⟩
    · simp only [navModify]
      rw [hpi]
      dsimp only
      rw [hl]
    · simp [navigate]
  | cons s rest ih =>
    intro n p es x hnav hpi hl
    by_cases hs : s = ""
    · simp only [navigate, if_pos hs] at hnav
      rcases ih n p es x hnav hpi hl with ⟨n₂, hmod, hnav₂⟩
      refine ⟨n₂, ?_, ?_⟩
      · simp only [navModify, if_pos hs]
        exact hmod
      · simp only [navigate, if_pos hs]
        exact hnav₂
    · simp only [navigate, if_neg hs] at hnav
      cases hi : n.items with
      | none =>
        rw [hi] at hnav
        dsimp only at hnav
        exact absurd hnav (by simp)
      | some es₀ =>
        rw [hi] at hnav
        dsimp only at hnav
        cases hlc : es₀.lookup s with
        | none =>
          rw [hlc] at hnav
          dsimp only at hnav
          exact absurd hnav (by simp)
        | some child =>
          rw [hlc] at hnav
          dsimp only at hnav
          by_cases hd : nodeIsDirectory child
          · rw [if_pos hd] at hnav
            rcases ih child p es x hnav hpi hl with ⟨c₂, hmodc, hnavc⟩
            refine ⟨.mk n.metadata (some (es₀.set s c₂)) n.hashLinks, ?_, ?_⟩
            · simp only [navModify, if_neg hs]
              rw [hi]
              dsimp only
              rw [hlc]
              dsimp only
              rw [if_pos hd, hmodc]
              rfl
            · simp only [navigate, if_neg hs, JsNode.items_mk]
              rw [Entries.lookup_set_self]
              dsimp only
              have hc₂dir : nodeIsDirectory c₂ = true := by
                unfold nodeIsDirectory
                exact navModify_items_isSome name f rest child c₂ hmodc
              rw [if_pos hc₂dir]
              exact hnavc
          · rw [if_neg hd] at hnav
            rcases ih n p es x hnav hpi hl with ⟨n₂, hmod, hnav₂⟩
            refine ⟨n₂, ?_, ?_⟩
            · simp only [navModify, if_neg hs]
              rw [hi]
              dsimp only
              rw [hlc]
              dsimp only
              rw [if_neg hd]
              exact hmod
            · simp only [navigate, if_neg hs]
              have hsome : n₂.items.isSome := navModify_items_isSome name f rest n n₂ hmod
              rcases itemOf_navModify name f hf rest n n₂ hmod s with ⟨h1, _⟩ |
                ⟨c, c₂, hc, hc₂, hdir⟩
              · exfalso
                simp [itemOf, hi, hlc] at h1
              · have hcc : c = child := by
                  simp only [itemOf, hi, hlc, Option.some.injEq] at hc
                  exact hc.symm
                cases hn₂i : n₂.items with
                | none => rw [hn₂i] at hsome; simp at hsome
                | some es₂ =>
                  dsimp only
                  have hlk : es₂.lookup s = some c₂ := by
                    simpa [itemOf, hn₂i] using hc₂
                  rw [hlk]
                  dsimp only
                  have hnd : nodeIsDirectory c₂ = false := by
                    unfold nodeIsDirectory
                    rw [hdir, hcc]
                    unfold nodeIsDirectory at hd
                    simpa using hd
                  rw [if_neg (by simp [hnd])]
                  exact hnav₂

theorem getDeepest_modify (f : JsNode → JsNode)
    (hf : ∀ x, (f x).items.isSome = x.items.isSome) (h : JsNode) (raw : List String)
    (x : JsNode) (hget : getDeepestNode h raw = some x) :
    ∃ h₂, modifyDeepest f h raw = some h₂ ∧ getDeepestNode h₂ raw = some (f x) := by
  by_cases hroot : normSegs raw = ["", ""]
  · have hx : x = h := by
      simp only [getDeepestNode] at hget
      rw [if_pos hroot] at hget
      exact (Option.some.injEq _ _ ▸ hget).symm
    subst hx
    refine ⟨f x, ?_, ?_⟩
    · simp only [modifyDeepest]
      rw [if_pos hroot]
    · simp only [getDeepestNode]
      rw [if_pos hroot]
  · simp only [getDeepestNode] at hget
    rw [if_neg hroot] at hget
    cases hnav : navigate h (splitOfJoin (normSegs raw).dropLast) with
    | none => rw [hnav] at hget; dsimp only at hget; exact absurd hget (by simp)
    | some parent =>
      rw [hnav] at hget
      dsimp only at hget
      cases hpi : parent.items with
      | none => rw [hpi] at hget; dsimp only at hget; exact absurd hget (by simp)
      | some es =>
        rw [hpi] at hget
        dsimp only at hget
        rcases navigate_navModify ((normSegs raw).getLastD "") f hf
          (splitOfJoin (normSegs raw).dropLast) h parent es x hnav hpi hget with
          ⟨n₂, hmod, hnav₂⟩
        refine ⟨n₂, ?_, ?_⟩
        · simp only [modifyDeepest]
          rw [if_neg hroot]
          exact hmod
        · simp only [getDeepestNode]
          rw [if_neg hroot, hnav₂]
          simp only [JsNode.items_mk]
          rw [Entries.lookup_set_self]

theorem normSegs_empty_path : normSegs [""] = [""] := rfl

theorem normSegs_root : normSegs ["", ""] = ["", ""] := rfl

theorem normSegs_single (s : String) (hs : s ≠ "") : normSegs [s] = [s] := by
  simp [normSegs, hs]

theorem getDeepestNode_normSegs (h : JsNode) (raw : List String) :
    getDeepestNode h (normSegs raw) = getDeepestNode h raw := by
  simp only [getDeepestNode, normSegs_idem]

theorem modifyDeepest_normSegs (f : JsNode → JsNode) (h : JsNode) (raw : List String) :
    modifyDeepest f h (normSegs raw) = modifyDeepest f h raw := by
  simp only [modifyDeepest, normSegs_idem]

theorem deleteNode_items_isSome (tsn : Bool) (ts : String) (x : JsNode) :
    (deleteNode tsn ts x).items.isSome = x.items.isSome := by
  cases x with
  | mk m i hl =>
    cases i <;> cases tsn <;>
      simp [deleteNode, updateTimeMetadata, nodeIsDirectory]

theorem truncateNode_items_isSome (tsn : Bool) (ts : String) (x : JsNode) :
    (truncateNode tsn ts x).items.isSome = x.items.isSome := by
  cases x with
  | mk m i hl =>
    cases i <;> cases tsn <;>
      simp [truncateNode, clearDeleted, updateTimeMetadata, nodeIsDirectory]

/-- Claim C2, counterexample.  After add("a/b/file.txt", brick) and
delete("a/b/file.txt") on a fresh BrickMap, getHashList("a/b/file.txt")
does not fail with a NotFound error: it succeeds and returns the empty
list, because getHashList performs no tombstone check. -/
theorem c2_counterexample :
    getHashListOp ["a", "b", "file.txt"]
      (deleteOp "t2" ["a", "b", "file.txt"]
        ((addOp "t1" ["a", "b", "file.txt"] ⟨"c1", "h1", none, none⟩
          (initHeader false "t0")).1)) = .ok [] := rfl

/-- Claim C2, amended: after add("a/b/file.txt", brick) followed by
delete("a/b/file.txt"), getHashList("a/b/file.txt") succeeds with the
empty list (the tombstoned node is still found and its cleared
hashLinks are mapped), while getBricksMeta on the same path is the
call that fails with NotFound. -/
theorem c2_amended :
    getHashListOp ["a", "b", "file.txt"]
      (deleteOp "t2" ["a", "b", "file.txt"]
        ((addOp "t1" ["a", "b", "file.txt"] ⟨"c1", "h1", none, none⟩
          (initHeader false "t0")).1)) = .ok []
    ∧ getBricksMetaOp ["a", "b", "file.txt"]
        (deleteOp "t2" ["a", "b", "file.txt"]
          ((addOp "t1" ["a", "b", "file.txt"] ⟨"c1", "h1", none, none⟩
            (initHeader false "t0")).1)) = .error .pathNotFound
    ∧ getHashListOp ["a", "b", "file.txt"]
        ((addOp "t1" ["a", "b", "file.txt"] ⟨"c1", "h1", none, none⟩
          (initHeader false "t0")).1) = .ok ["h1"] :=
  ⟨rfl, rfl, rfl⟩

/-- Claim C7, code bug.  isEmpty on an existing empty directory: the
claim (and the spec) say true, but the source computes the negation of
the truthiness of Object.keys(node.items), an array, which is always
truthy, so isEmpty answers false for every existing directory.  The
parallel file branch reads hashLinks.length, showing the intended
meaning; the directory branch is missing the .length.  At the failing
input, a freshly created empty folder "d": the node exists with an
empty items mapping, yet isEmpty returns false; the file and missing
cases behave as claimed. -/
theorem c7_code_bug :
    (isEmptyOp ["d"] ((createFolderOp "t1" ["d"] (initHeader false "t0")).1) = false
      ∧ (getDeepestNode ((createFolderOp "t1" ["d"] (initHeader false "t0")).1)
          ["d"]).map JsNode.items = some (some .nil))
    ∧ isEmptyOp ["missing"] (initHeader false "t0") = true
    ∧ isEmptyOp ["f"]
        ((addOp "t1" ["f"] ⟨"c1", "h1", none, none⟩ (initHeader false "t0")).1) = false
    ∧ isEmptyOp ["f"]
        ((createFileOp "t1" ["f"] (initHeader false "t0")).1) = true :=
  ⟨⟨rfl, rfl⟩, rfl, rfl, rfl⟩

/-- Claim C9, counterexample.  A brick reference that carries no key:
the claim says the template key identity is returned, but
getBrickEncryptionKeySSI returns brickMeta.key unconditionally
whenever an argument is supplied, which is undefined here, not the
template identity. -/
theorem c9_counterexample :
    getBrickEncryptionKeySSI "tpl" (some ⟨"c", "h", none, none⟩) = .undefinedKey
    ∧ getBrickEncryptionKeySSI "tpl" (some ⟨"c", "h", none, none⟩)
        ≠ KeyResult.ident "tpl" :=
  ⟨rfl, by decide⟩

/-- Claim C9, amended: the template key identity is returned only when
no brick reference is supplied at all; a supplied brick reference
yields its key field unconditionally, which is the per-brick key when
present and undefined (not the template identity) when absent. -/
theorem c9_amended (templateId : String) (br : BrickRef) :
    getBrickEncryptionKeySSI templateId none = .ident templateId
    ∧ (∀ k, br.key = some k →
        getBrickEncryptionKeySSI templateId (some br) = .keyVal k)
    ∧ (br.key = none → getBrickEncryptionKeySSI templateId (some br) = .undefinedKey) := by
  refine ⟨rfl, ?_, ?_⟩
  · intro k hk
    simp [getBrickEncryptionKeySSI, hk]
  · intro hk
    simp [getBrickEncryptionKeySSI, hk]

/-- Witness for the amended claim C9 at concrete inputs. -/
theorem c9_amended_witness :
    getBrickEncryptionKeySSI "tpl" (some ⟨"c", "h", none, some (.strv "k1")⟩)
        = .keyVal (.strv "k1")
    ∧ getBrickEncryptionKeySSI "tpl" (some ⟨"c", "h", none, none⟩) = .undefinedKey :=
  ⟨(c9_amended "tpl" ⟨"c", "h", none, some (.strv "k1")⟩).2.1 (.strv "k1") rfl,
   (c9_amended "tpl" ⟨"c", "h", none, none⟩).2.2 rfl⟩

/-- Claim C1, counterexample.  A state with one file "a" under a fresh
timestamped root: delete("/") (the split of the slash path, which
normalizes to the root) does reach the header through getDeepestNode's
root branch, tombstones it (deletedAt is stamped) and clears its items
mapping, contradicting the claim that the header is never touched. -/
theorem c1_counterexample :
    (itemOf ((addOp "t1" ["a"] ⟨"c1", "h1", none, none⟩
        (initHeader false "t0")).1) "a").isSome = true
    ∧ mLookup "deletedAt"
        (deleteOp "t2" ["", ""]
          ((addOp "t1" ["a"] ⟨"c1", "h1", none, none⟩
            (initHeader false "t0")).1)).metadata = some "t2"
    ∧ (deleteOp "t2" ["", ""]
        ((addOp "t1" ["a"] ⟨"c1", "h1", none, none⟩
          (initHeader false "t0")).1)).items = some .nil :=
  ⟨rfl, rfl, rfl⟩

/-- Claim C1, amended: only the empty path is harmless.  delete with
the path "" (whose normalization is "") is a no-op whenever the header
has no item literally named "", because getDeepestNode resolves "" to
the absent empty-named entry of the header; but delete with any path
normalizing to "/" resolves to the header itself and tombstones it,
stamping deletedAt when timestamping is on and clearing its items. -/
theorem c1_amended (ts : String) (h : JsNode) (raw : List String) :
    (itemOf h "" = none → deleteOp ts [""] h = h)
    ∧ (normSegs raw = ["", ""] →
        deleteOp ts raw h = if nodeIsDeleted h then h else deleteNode (tsOn h) ts h) := by
  constructor
  · intro hempty
    have hg : getDeepestNode h [""] = none := by
      simp only [getDeepestNode, normSegs_empty_path]
      rw [if_neg (by decide)]
      have hnav : navigate h (splitOfJoin (([""] : List String)).dropLast) = some h := by
        show navigate h [""] = some h
        simp [navigate]
      rw [hnav]
      dsimp only
      unfold itemOf at hempty
      cases hi : h.items with
      | none => rfl
      | some es =>
        rw [hi] at hempty
        dsimp only
        exact hempty
    simp only [deleteOp, normSegs_empty_path]
    rw [hg]
  · intro hroot
    have hg : getDeepestNode h ["", ""] = some h := by
      simp only [getDeepestNode, normSegs_root]
      simp
    simp only [deleteOp]
    rw [hroot, hg]
    dsimp only
    by_cases hd : nodeIsDeleted h
    · rw [if_pos hd, if_pos hd]
    · rw [if_neg hd, if_neg hd]
      have hmod : modifyDeepest (deleteNode (tsOn h) ts) h ["", ""]
          = some (deleteNode (tsOn h) ts h) := by
        simp only [modifyDeepest, normSegs_root]
        simp
      rw [hmod]
      rfl

/-- Witness for the amended claim C1: on a fresh timestamped map, the
empty path leaves the header unchanged, and the root path "/"
tombstones it. -/
theorem c1_amended_witness :
    deleteOp "t9" [""] (initHeader false "t0") = initHeader false "t0"
    ∧ deleteOp "t9" ["", ""] (initHeader false "t0")
        = if nodeIsDeleted (initHeader false "t0") then initHeader false "t0"
          else deleteNode (tsOn (initHeader false "t0")) "t9" (initHeader false "t0") :=
  ⟨(c1_amended "t9" (initHeader false "t0") ["", ""]).1 rfl,
   (c1_amended "t9" (initHeader false "t0") ["", ""]).2 rfl⟩


theorem afterLoop_snd (tsn : Bool) (ts : String) (tr : Trailing)
    (f : JsNode → JsNode × Option JsErr) (parent : JsNode) (key : String)
    (hi : parent.items.isSome = true) (hfo : ∀ n, (f n).2 = none) :
    (afterLoop tsn ts tr f parent key).2 = none := by
  cases hpi : parent.items with
  | none => rw [hpi] at hi; simp at hi
  | some es =>
    cases hl : es.lookup key with
    | none =>
      simp only [afterLoop, hpi, hl]
      rw [Entries.lookup_set_self]
      exact hfo _
    | some node =>
      simp only [afterLoop, hpi, hl]
      exact hfo _

theorem walkVisit_items_isSome (key : String) (parent parent₂ : JsNode)
    (hv : walkVisit key parent = some parent₂) : parent₂.items.isSome = true := by
  cases hpi : parent.items with
  | none => simp [walkVisit, hpi] at hv
  | some es =>
    simp only [walkVisit, hpi, Option.some.injEq] at hv
    rw [← hv]
    simp

theorem createWalk_single_snd (tsn : Bool) (ts : String) (tr : Trailing)
    (f : JsNode → JsNode × Option JsErr) (h : JsNode) (s : String)
    (hs : s ≠ "") (hd : nodeIsDirectory h = true) (hfo : ∀ n, (f n).2 = none) :
    (createWalk tsn ts tr f h [s]).2 = none := by
  simp only [createWalk]
  rw [if_neg hs]
  cases hv : walkVisit s h with
  | none =>
    exfalso
    unfold nodeIsDirectory at hd
    cases hpi : h.items with
    | none => rw [hpi] at hd; simp at hd
    | some es => simp [walkVisit, hpi] at hv
  | some parent₂ =>
    dsimp only
    simp only [if_true]
    exact afterLoop_snd tsn ts tr f parent₂ s (walkVisit_items_isSome s h parent₂ hv) hfo

/-- Claim C8, counterexample.  A single-segment conflict: createFile
creates a top-level file "a", and a subsequent createFolder("a") does
not fail at all (no error is raised), because the conflict checks run
only when the dirname string is truthy, which a top-level path never
has; the claim asserts an error for occupied locations regardless of
the number of segments. -/
theorem c8_counterexample :
    (createFolderOp "t2" ["a"]
      ((createFileOp "t1" ["a"] (initHeader false "t0")).1)).2 = none
    ∧ nodeIsDirectory
        ((getDeepestNode ((createFileOp "t1" ["a"] (initHeader false "t0")).1)
          ["a"]).getD (initHeader false "t0")) = false :=
  ⟨rfl, rfl⟩

/-- Claim C8, amended: the createFolder error checks run as claimed
only for paths of at least two segments.  Missing folder name is
raised exactly when the normalized path is empty (a trailing empty
segment is collapsed by normalization instead); with a multi-segment
path whose parent resolves, a file parent raises the
folder-in-a-file error and an occupied final name (of either kind)
raises the already-exists error; but on a single-segment path the
conflict checks are skipped entirely and createFolder succeeds even
when the name is occupied. -/
theorem c8_amended (ts : String) (h p : JsNode) (raw : List String) (s : String) :
    (normSegs raw = [""] → createFolderOp ts raw h = (h, some .missingFolderName))
    ∧ (normSegs raw ≠ ["", ""] → (normSegs raw).getLastD "" ≠ "" →
        (normSegs raw).dropLast ≠ [] →
        getDeepestNode h (splitOfJoin (normSegs raw).dropLast) = some p →
        nodeIsDirectory p = false →
        createFolderOp ts raw h = (h, some .folderInFile))
    ∧ (normSegs raw ≠ ["", ""] → (normSegs raw).getLastD "" ≠ "" →
        (normSegs raw).dropLast ≠ [] →
        getDeepestNode h (splitOfJoin (normSegs raw).dropLast) = some p →
        nodeIsDirectory p = true →
        ((p.items.getD .nil).lookup ((normSegs raw).getLastD "")).isSome = true →
        createFolderOp ts raw h = (h, some .alreadyExists))
    ∧ (s ≠ "" → nodeIsDirectory h = true →
        (createFolderOp ts [s] h).2 = none) := by
  refine ⟨?_, ?_, ?_, ?_⟩
  · intro hempty
    simp only [createFolderOp, createNodeOp, hempty]
    simp
  · intro hroot hname hmulti hp hpd
    simp only [createFolderOp, createNodeOp]
    rw [if_neg hroot, if_neg hname, if_neg hmulti, hp]
    dsimp only
    rw [if_pos hpd]
  · intro hroot hname hmulti hp hpd hocc
    simp only [createFolderOp, createNodeOp]
    rw [if_neg hroot, if_neg hname, if_neg hmulti, hp]
    dsimp only
    rw [if_neg (by simp [hpd])]
    rw [if_pos (by
      have hocc₂ := hocc
      simp only [List.getLastD_eq_getLast?] at hocc₂
      simp [hocc₂])]
  · intro hs hdir
    simp only [createFolderOp, createNodeOp, normSegs_single s hs]
    rw [if_neg (by simp), if_neg (by simpa using hs), if_pos (by simp)]
    exact createWalk_single_snd (tsOn h) ts .parent _ h s hs hdir (fun n => rfl)

/-- Witness for the amended claim C8 at concrete inputs: the empty
path, an occupied two-segment path, and an occupied top-level path. -/
theorem c8_amended_witness :
    createFolderOp "t9" [""] (initHeader false "t0")
        = (initHeader false "t0", some .missingFolderName)
    ∧ createFolderOp "t9" ["a", "b"]
        (JsNode.mk [("createdAt", "t0")]
          (some (.cons "a"
            (JsNode.mk []
              (some (.cons "b" (JsNode.mk [] (some .nil) none) .nil)) none) .nil))
          none)
        = (JsNode.mk [("createdAt", "t0")]
            (some (.cons "a"
              (JsNode.mk []
                (some (.cons "b" (JsNode.mk [] (some .nil) none) .nil)) none) .nil))
            none, some .alreadyExists)
    ∧ (createFolderOp "t9" ["a"]
        (JsNode.mk [("createdAt", "t0")]
          (some (.cons "a" (JsNode.mk [] none (some [])) .nil)) none)).2 = none := by
  refine ⟨?_, ?_, ?_⟩
  · exact (c8_amended "t9" (initHeader false "t0") (initHeader false "t0") [""] "x").1 rfl
  · exact (c8_amended "t9" _
      (JsNode.mk [] (some (.cons "b" (JsNode.mk [] (some .nil) none) .nil)) none)
      ["a", "b"] "x").2.2.1 (by decide) (by decide) (by decide) rfl rfl rfl
  · exact (c8_amended "t9" _ (initHeader false "t0") ["a"] "a").2.2.2 (by decide) rfl

/-- Claim C3, counterexample.  On a map initialized with
preventTimestamp, delete of an existing non-tombstoned file clears its
hashLinks but does not mark deletedAt at all (updateTimeMetadata is a
no-op when the header carries no createdAt), so the claim's
"marks the node's metadata deletedAt with a timestamp, for every
existing non-tombstoned node" fails at this input. -/
theorem c3_counterexample :
    ((getDeepestNode
        ((addOp "t1" ["a"] ⟨"c1", "h1", none, none⟩ (initHeader true "t0")).1)
        ["a"]).map nodeIsDeleted = some false)
    ∧ ((getDeepestNode
        (deleteOp "t2" ["a"]
          ((addOp "t1" ["a"] ⟨"c1", "h1", none, none⟩ (initHeader true "t0")).1))
        ["a"]).map nodeIsDeleted = some false)
    ∧ ((getDeepestNode
        (deleteOp "t2" ["a"]
          ((addOp "t1" ["a"] ⟨"c1", "h1", none, none⟩ (initHeader true "t0")).1))
        ["a"]).map JsNode.hashLinks = some (some [])) :=
  ⟨rfl, rfl, rfl⟩

/-- Claim C3, amended: delete is a no-op when the node at the path is
missing or already tombstoned; when the node exists and is not
tombstoned, and automatic timestamping is on (the header's createdAt
is truthy, which the original claim left implicit and which fails
under preventTimestamp), delete stamps deletedAt with the timestamp
and clears the node's content: items becomes empty for a directory,
hashLinks becomes empty otherwise. -/
theorem c3_amended (ts : String) (raw : List String) (h x : JsNode) :
    (getDeepestNode h raw = none → deleteOp ts raw h = h)
    ∧ (getDeepestNode h raw = some x → nodeIsDeleted x = true → deleteOp ts raw h = h)
    ∧ (tsOn h = true → getDeepestNode h raw = some x → nodeIsDeleted x = false →
        ∃ h₂, deleteOp ts raw h = h₂
          ∧ getDeepestNode h₂ raw = some (deleteNode true ts x)
          ∧ mLookup "deletedAt" (deleteNode true ts x).metadata = some ts
          ∧ (nodeIsDirectory x = true → (deleteNode true ts x).items = some .nil)
          ∧ (nodeIsDirectory x = false → (deleteNode true ts x).hashLinks = some [])) := by
  refine ⟨?_, ?_, ?_⟩
  · intro hnone
    have hg : getDeepestNode h (normSegs raw) = none := by
      rw [getDeepestNode_normSegs]
      exact hnone
    simp only [deleteOp]
    rw [hg]
  · intro hsome hdel
    have hg : getDeepestNode h (normSegs raw) = some x := by
      rw [getDeepestNode_normSegs]
      exact hsome
    simp only [deleteOp]
    rw [hg]
    dsimp only
    rw [if_pos hdel]
  · intro hts hsome hdel
    have hg : getDeepestNode h (normSegs raw) = some x := by
      rw [getDeepestNode_normSegs]
      exact hsome
    rcases getDeepest_modify (deleteNode (tsOn h) ts)
      (deleteNode_items_isSome (tsOn h) ts) h (normSegs raw) x hg with ⟨h₂, hmod, hread⟩
    refine ⟨h₂, ?_, ?_, ?_, ?_, ?_⟩
    · simp only [deleteOp]
      rw [hg]
      dsimp only
      rw [if_neg (by simp [hdel]), hmod]
      rfl
    · rw [getDeepestNode_normSegs] at hread
      rw [hts] at hread
      exact hread
    · cases x with
      | mk m i hl =>
        cases i <;>
          simp [deleteNode, updateTimeMetadata, nodeIsDirectory, mLookup_updAssoc_self]
    · intro hdir
      cases x with
      | mk m i hl =>
        cases i with
        | none => rw [nodeIsDirectory] at hdir; simp at hdir
        | some es => simp [deleteNode, updateTimeMetadata, nodeIsDirectory]
    · intro hdir
      cases x with
      | mk m i hl =>
        cases i with
        | some es => rw [nodeIsDirectory] at hdir; simp at hdir
        | none => simp [deleteNode, updateTimeMetadata, nodeIsDirectory]

/-- Witness for the amended claim C3: delete of an existing
non-tombstoned file on a timestamped map stamps deletedAt and clears
the hashLinks. -/
theorem c3_amended_witness :
    getDeepestNode
        (deleteOp "t2" ["a"]
          ((addOp "t1" ["a"] ⟨"c1", "h1", none, none⟩ (initHeader false "t0")).1))
        ["a"]
      = some (deleteNode true "t2"
          (JsNode.mk [("createdAt", "t1"), ("updatedAt", "t1")] none
            (some [⟨"c1", "h1", none, none⟩])))
    ∧ mLookup "deletedAt"
        (deleteNode true "t2"
          (JsNode.mk [("createdAt", "t1"), ("updatedAt", "t1")] none
            (some [⟨"c1", "h1", none, none⟩]))).metadata = some "t2" := by
  obtain ⟨h₂, heq, hread, hdel, _, _⟩ :=
    (c3_amended "t2" ["a"]
      ((addOp "t1" ["a"] ⟨"c1", "h1", none, none⟩ (initHeader false "t0")).1)
      (JsNode.mk [("createdAt", "t1"), ("updatedAt", "t1")] none
        (some [⟨"c1", "h1", none, none⟩]))).2.2 rfl rfl rfl
  exact ⟨heq ▸ hread, hdel⟩

theorem jsonStrArr_natsToArr (d : List Nat) : jsonStrArr (natsToArr d) = natsToArr d := by
  induction d with
  | nil => rfl
  | cons n r ih => simp [natsToArr, jsonStrArr, jsonStr, ih]

theorem arrToNats_natsToArr (d : List Nat) : arrToNats (natsToArr d) = d := by
  induction d with
  | nil => rfl
  | cons n r ih => simp [natsToArr, arrToNats, ih]

theorem reviveArr_natsToArr (d : List Nat) : reviveArr (natsToArr d) = natsToArr d := by
  induction d with
  | nil => rfl
  | cons n r ih => simp [natsToArr, reviveArr, reviveVal, ih]

theorem jsonStrObj_metaToJs (m : List (String × String)) :
    jsonStrObj (metaToJs m) = metaToJs m := by
  induction m with
  | nil => rfl
  | cons p r ih => simp [metaToJs, jsonStrObj, jsonStr, ih]

theorem jsonStr_bufMarker (d : List Nat) : jsonStr (bufMarker d) = bufMarker d := by
  simp [bufMarker, jsonStr, jsonStrObj, jsonStrArr_natsToArr]

theorem reviveVal_bufMarker (d : List Nat) : reviveVal (bufMarker d) = bufMarker d := by
  simp [bufMarker, reviveVal, reviveObj, reviveArr_natsToArr]

theorem bufReviver_bufMarker (d : List Nat) : bufReviver (bufMarker d) = .buf d := by
  simp [bufReviver, bufMarker, jsTypeofObject, objKeysLen, JsObj.length, getProp,
    JsObj.lookup, arrToNats_natsToArr]

theorem bufReviver_str (s : String) : bufReviver (.str s) = .str s := rfl

theorem reviveObj_metaToJs (m : List (String × String)) :
    reviveObj (metaToJs m) = metaToJs m := by
  induction m with
  | nil => rfl
  | cons p r ih =>
    by_cases hk : p.1 = "key"
    · simp [metaToJs, reviveObj, reviveVal, hk, bufReviver_str, ih]
    · simp [metaToJs, reviveObj, reviveVal, hk, ih]

theorem bufReviver_nodeToJs (x : JsNode) : bufReviver (nodeToJs x) = nodeToJs x := by
  cases x with
  | mk m i hl =>
    cases i <;> cases hl <;>
      simp [nodeToJs, bufReviver, jsTypeofObject, objKeysLen, JsObj.length, getProp,
        JsObj.lookup]

theorem revive_jsonStr_key (k : KeyVal) :
    bufReviver (reviveVal (jsonStr (keyToJs k))) = keyToJs (canonKey k) := by
  cases k with
  | buf d =>
    simp only [keyToJs, jsonStr, reviveVal_bufMarker, bufReviver_bufMarker, canonKey]
  | bufShape d =>
    simp only [keyToJs, jsonStr_bufMarker, reviveVal_bufMarker, bufReviver_bufMarker,
      canonKey]
  | strv s => rfl

theorem revive_jsonStr_brick (b : BrickRef) :
    reviveVal (jsonStr (brickToJs b)) = brickToJs (canonBrick b) := by
  cases b with
  | mk cs hlk sz k =>
    cases sz <;> cases k <;>
      simp [brickToJs, canonBrick, sizeField, keyField, jsonStr, jsonStrObj, reviveVal,
        reviveObj, bufReviver_str, revive_jsonStr_key, canonKey]

theorem revive_jsonStr_bricks (ls : List BrickRef) :
    reviveArr (jsonStrArr (bricksToArr ls)) = bricksToArr (ls.map canonBrick) := by
  induction ls with
  | nil => rfl
  | cons b r ih =>
    have hb := revive_jsonStr_brick b
    cases b with
    | mk cs hlk sz k =>
      simp only [bricksToArr, jsonStrArr, reviveArr, List.map, ih]
      rw [hb]

mutual

theorem revive_jsonStr_node (n : JsNode) :
    reviveVal (jsonStr (nodeToJs n)) = nodeToJs (canonNode n) := by
  cases n with
  | mk m i hl =>
    cases i with
    | none =>
      cases hl with
      | none =>
        simp [nodeToJs, canonNode, jsonStr, jsonStrObj, jsonStrObj_metaToJs, reviveVal,
          reviveObj, reviveObj_metaToJs]
      | some ls =>
        simp [nodeToJs, canonNode, jsonStr, jsonStrObj, jsonStrObj_metaToJs, reviveVal,
          reviveObj, reviveObj_metaToJs, revive_jsonStr_bricks]
    | some es =>
      cases hl with
      | none =>
        have hes := revive_jsonStr_entries es
        simp [nodeToJs, canonNode, jsonStr, jsonStrObj, jsonStrObj_metaToJs, reviveVal,
          reviveObj, reviveObj_metaToJs, hes]
      | some ls =>
        have hes := revive_jsonStr_entries es
        simp [nodeToJs, canonNode, jsonStr, jsonStrObj, jsonStrObj_metaToJs, reviveVal,
          reviveObj, reviveObj_metaToJs, hes, revive_jsonStr_bricks]

theorem revive_jsonStr_entries (es : Entries) :
    reviveObj (jsonStrObj (entriesToJs es)) = entriesToJs (canonEntries es) := by
  cases es with
  | nil => rfl
  | cons name v r =>
    have hv := revive_jsonStr_node v
    have hr := revive_jsonStr_entries r
    by_cases hk : name = "key"
    · subst hk
      simp only [entriesToJs, canonEntries, jsonStrObj, reviveObj]
      rw [if_pos trivial, hv, bufReviver_nodeToJs, hr]
    · simp only [entriesToJs, canonEntries, jsonStrObj, reviveObj, if_neg hk, hv, hr]

end

theorem jsonStr_canon_key (k : KeyVal) :
    jsonStr (keyToJs (canonKey k)) = jsonStr (keyToJs k) := by
  cases k with
  | buf d => rfl
  | bufShape d =>
    show jsonStr (.buf d) = jsonStr (bufMarker d)
    rw [jsonStr_bufMarker]
    rfl
  | strv s => rfl

theorem jsonStr_canon_brick (b : BrickRef) :
    jsonStr (brickToJs (canonBrick b)) = jsonStr (brickToJs b) := by
  cases b with
  | mk cs hlk sz k =>
    cases sz <;> cases k <;>
      simp [brickToJs, canonBrick, sizeField, keyField, jsonStr, jsonStrObj,
        jsonStr_canon_key]

theorem jsonStr_canon_bricks (ls : List BrickRef) :
    jsonStrArr (bricksToArr (ls.map canonBrick)) = jsonStrArr (bricksToArr ls) := by
  induction ls with
  | nil => rfl
  | cons b r ih =>
    have hb := jsonStr_canon_brick b
    simp only [List.map, bricksToArr, jsonStrArr, ih]
    cases hLHS : jsonStr (brickToJs (canonBrick b)) <;> rw [← hLHS, hb]

mutual

theorem jsonStr_canon_node (n : JsNode) :
    jsonStr (nodeToJs (canonNode n)) = jsonStr (nodeToJs n) := by
  cases n with
  | mk m i hl =>
    cases i with
    | none =>
      cases hl with
      | none => rfl
      | some ls =>
        simp [nodeToJs, canonNode, jsonStr, jsonStrObj, jsonStr_canon_bricks]
    | some es =>
      cases hl with
      | none =>
        have hes := jsonStr_canon_entries es
        simp [nodeToJs, canonNode, jsonStr, jsonStrObj, hes]
      | some ls =>
        have hes := jsonStr_canon_entries es
        simp [nodeToJs, canonNode, jsonStr, jsonStrObj, hes, jsonStr_canon_bricks]

theorem jsonStr_canon_entries (es : Entries) :
    jsonStrObj (entriesToJs (canonEntries es)) = jsonStrObj (entriesToJs es) := by
  cases es with
  | nil => rfl
  | cons name v r =>
    have hv := jsonStr_canon_node v
    have hr := jsonStr_canon_entries r
    simp only [entriesToJs, canonEntries, jsonStrObj, hv, hr]

end

/-- Whether the optional key of a brick reference is a genuine buffer
instance or a string, rather than a plain object of buffer shape. -/
def keyIsInstance : Option KeyVal → Bool
  | some (.bufShape _) => false
  | _ => true

theorem canonBrick_eq_self (b : BrickRef) (hb : keyIsInstance b.key = true) :
    canonBrick b = b := by
  cases b with
  | mk cs hlk sz k =>
    cases k with
    | none => rfl
    | some kv =>
      cases kv with
      | buf d => rfl
      | strv s => rfl
      | bufShape d => simp [keyIsInstance] at hb

mutual

/-- Every key in the tree is stored as a buffer instance or a string
(no plain marker-shaped objects). -/
def keysCanonNode : JsNode → Bool
  | .mk _ i hl =>
    (match hl with
     | some ls => ls.all (fun b => keyIsInstance b.key)
     | none => true) &&
      (match i with
       | some es => keysCanonEntries es
       | none => true)

/-- keysCanonNode through an items mapping. -/
def keysCanonEntries : Entries → Bool
  | .nil => true
  | .cons _ v r => keysCanonNode v && keysCanonEntries r

end

mutual

theorem canonNode_eq_self (n : JsNode) (hc : keysCanonNode n = true) :
    canonNode n = n := by
  cases n with
  | mk m i hl =>
    cases i with
    | none =>
      cases hl with
      | none => rfl
      | some ls =>
        simp only [keysCanonNode, Bool.and_eq_true] at hc
        simp only [canonNode]
        rw [List.map_congr_left (fun b hb => canonBrick_eq_self b (by
          have := hc.1
          exact List.all_eq_true.mp this b hb))]
        simp
    | some es =>
      cases hl with
      | none =>
        simp only [keysCanonNode, Bool.and_eq_true] at hc
        simp only [canonNode]
        rw [canonEntries_eq_self es hc.2]
      | some ls =>
        simp only [keysCanonNode, Bool.and_eq_true] at hc
        simp only [canonNode]
        rw [canonEntries_eq_self es hc.2]
        rw [List.map_congr_left (fun b hb => canonBrick_eq_self b (by
          have := hc.1
          exact List.all_eq_true.mp this b hb))]
        simp

theorem canonEntries_eq_self (es : Entries) (hc : keysCanonEntries es = true) :
    canonEntries es = es := by
  cases es with
  | nil => rfl
  | cons name v r =>
    simp only [keysCanonEntries, Bool.and_eq_true] at hc
    simp only [canonEntries]
    rw [canonNode_eq_self v hc.1, canonEntries_eq_self r hc.2]

end

/-- Claim C5: serializing the header with toBrick and loading the
produced bytes into a fresh BrickMap yields a getState snapshot
identical to the original, for every state; and when every stored key
is a buffer instance or a string, the loaded in-memory header is
exactly the original in-memory value, with every buffer-encoded key
restored to its raw bytes by the load reviver. -/
theorem c5_roundtrip (h : JsNode) :
    getStateOfVal (loadRevived h) = getStateJs h
    ∧ (keysCanonNode h = true → loadRevived h = nodeToJs h) := by
  constructor
  · show jsonStr (reviveVal (jsonStr (nodeToJs h))) = jsonStr (nodeToJs h)
    rw [revive_jsonStr_node, jsonStr_canon_node]
  · intro hc
    show reviveVal (jsonStr (nodeToJs h)) = nodeToJs h
    rw [revive_jsonStr_node, canonNode_eq_self h hc]

/-- Witness for claim C5 at a concrete state holding a byte-valued
encryption key: the loaded header restores the exact bytes. -/
theorem c5_roundtrip_witness :
    loadRevived
        (JsNode.mk [("createdAt", "t0")]
          (some (.cons "f"
            (JsNode.mk [] none (some [⟨"c1", "h1", some 3, some (.buf [1, 2, 255])⟩]))
            .nil))
          none)
      = nodeToJs
        (JsNode.mk [("createdAt", "t0")]
          (some (.cons "f"
            (JsNode.mk [] none (some [⟨"c1", "h1", some 3, some (.buf [1, 2, 255])⟩]))
            .nil))
          none) :=
  (c5_roundtrip _).2 rfl

theorem newNode_not_deleted (tsn : Bool) (ts : String) (tr : Trailing) :
    nodeIsDeleted (newNode tsn ts tr) = false := by
  cases tr <;> cases tsn <;> simp [newNode, nodeIsDeleted, mLookup]

theorem clearDeleted_not_deleted (n : JsNode) :
    nodeIsDeleted (clearDeleted n) = false := by
  simp [clearDeleted, nodeIsDeleted, mLookup_delAssoc_self]

theorem walkVisit_not_deleted (key : String) (parent parent₂ : JsNode)
    (hv : walkVisit key parent = some parent₂) : nodeIsDeleted parent₂ = false := by
  cases hpi : parent.items with
  | none => simp [walkVisit, hpi] at hv
  | some es =>
    simp only [walkVisit, hpi, Option.some.injEq] at hv
    rw [← hv]
    simp [nodeIsDeleted, mLookup_delAssoc_self]

theorem walkVisit_clears (key : String) (parent parent₂ : JsNode)
    (hv : walkVisit key parent = some parent₂) :
    ∀ v, itemOf parent₂ key = some v → nodeIsDeleted v = false := by
  intro v hvl
  cases hpi : parent.items with
  | none => simp [walkVisit, hpi] at hv
  | some es =>
    simp only [walkVisit, hpi, Option.some.injEq] at hv
    rw [← hv] at hvl
    simp only [itemOf, JsNode.items_mk] at hvl
    cases hl : es.lookup key with
    | none =>
      rw [hl] at hvl
      dsimp only at hvl
      rw [hl] at hvl
      simp at hvl
    | some child =>
      rw [hl] at hvl
      dsimp only at hvl
      rw [Entries.lookup_set_self] at hvl
      cases hvl
      exact clearDeleted_not_deleted child

theorem afterLoop_preserve (P : JsNode → Bool) (tsn : Bool) (ts : String)
    (tr : Trailing) (f : JsNode → JsNode × Option JsErr) (parent : JsNode)
    (key : String)
    (hPsub : ∀ (n : JsNode) (es : Entries) (k : String) (v : JsNode),
      P n = true → n.items = some es → es.lookup k = some v → P v = true)
    (hPset : ∀ (m : List (String × String)) (es : Entries)
      (hl : Option (List BrickRef)) (k : String) (v : JsNode),
      P (.mk m (some es) hl) = true → nodeIsDeleted (.mk m (some es) hl) = false →
      P v = true → P (.mk m (some (es.set k v)) hl) = true)
    (hPnew : ∀ tr', P (newNode tsn ts tr') = true)
    (hPf : ∀ n, P n = true → nodeIsDeleted n = false → P (f n).1 = true)
    (hP : P parent = true) (hpd : nodeIsDeleted parent = false)
    (hnd : ∀ v, itemOf parent key = some v → nodeIsDeleted v = false) :
    P (afterLoop tsn ts tr f parent key).1 = true := by
  cases hpi : parent.items with
  | none => simp only [afterLoop, hpi]; exact hP
  | some es =>
    cases hl : es.lookup key with
    | none =>
      simp only [afterLoop, hpi, hl]
      rw [Entries.lookup_set_self]
      dsimp only
      have hnode : P (newNode tsn ts tr) = true := hPnew tr
      have hfn : P (f (newNode tsn ts tr)).1 = true :=
        hPf _ hnode (newNode_not_deleted tsn ts tr)
      cases hparent : parent with
      | mk m i hlk =>
        rw [hparent] at hpi hP hpd
        cases hpi
        simp only [JsNode.metadata_mk, JsNode.hashLinks_mk]
        have h₁ : P (JsNode.mk m (some (es.set key (newNode tsn ts tr))) hlk) = true :=
          hPset m es hlk key (newNode tsn ts tr) hP hpd hnode
        have h₂ : nodeIsDeleted (JsNode.mk m (some (es.set key (newNode tsn ts tr))) hlk)
            = false := by
          simpa [nodeIsDeleted] using hpd
        exact hPset m (es.set key (newNode tsn ts tr)) hlk key
          (f (newNode tsn ts tr)).1 h₁ h₂ hfn
    | some node =>
      simp only [afterLoop, hpi, hl]
      have hnode : P node = true := hPsub parent es key node hP hpi hl
      have hndn : nodeIsDeleted node = false := hnd node (by simp [itemOf, hpi, hl])
      have hfn : P (f node).1 = true := hPf node hnode hndn
      cases hparent : parent with
      | mk m i hlk =>
        rw [hparent] at hpi hP hpd
        cases hpi
        simp only [JsNode.metadata_mk, JsNode.hashLinks_mk]
        exact hPset m es hlk key (f node).1 hP hpd hfn


theorem node_eta (n : JsNode) (es : Entries) (hi : n.items = some es) :
    JsNode.mk n.metadata (some es) n.hashLinks = n := by
  cases n
  cases hi
  rfl

theorem nodeIsDeleted_metadata (n : JsNode) :
    nodeIsDeleted n = (mLookup "deletedAt" n.metadata).isSome := rfl

theorem ensureDir_spec (tsn : Bool) (ts : String) (key : String) (p : JsNode)
    (es : Entries) (hpi : p.items = some es) :
    (ensureDir tsn ts key p).metadata = p.metadata
    ∧ (ensureDir tsn ts key p).hashLinks = p.hashLinks
    ∧ ∃ es₃ child, (ensureDir tsn ts key p).items = some es₃
        ∧ es₃.lookup key = some child
        ∧ (es.lookup key = some child ∨ child = newNode tsn ts .parent) := by
  cases hl : es.lookup key with
  | some child =>
    have he : ensureDir tsn ts key p = p := by simp [ensureDir, hpi, hl]
    rw [he]
    exact ⟨rfl, rfl, es, child, hpi, hl, Or.inl rfl⟩
  | none =>
    have he : ensureDir tsn ts key p
        = JsNode.mk p.metadata (some (es.set key (newNode tsn ts .parent)))
            p.hashLinks := by
      simp [ensureDir, hpi, hl]
    rw [he]
    exact ⟨rfl, rfl, es.set key (newNode tsn ts .parent), newNode tsn ts .parent,
      rfl, Entries.lookup_set_self es key _, Or.inr rfl⟩

theorem ensureDir_preserve (P : JsNode → Bool) (tsn : Bool) (ts : String)
    (key : String) (p : JsNode)
    (hPset : ∀ (m : List (String × String)) (es : Entries)
      (hl : Option (List BrickRef)) (k : String) (v : JsNode),
      P (.mk m (some es) hl) = true → nodeIsDeleted (.mk m (some es) hl) = false →
      P v = true → P (.mk m (some (es.set k v)) hl) = true)
    (hPnew : ∀ tr', P (newNode tsn ts tr') = true)
    (hP : P p = true) (hpd : nodeIsDeleted p = false) :
    P (ensureDir tsn ts key p) = true := by
  cases hpi : p.items with
  | none => simp only [ensureDir, hpi]; exact hP
  | some es =>
    cases hl : es.lookup key with
    | some child => simp only [ensureDir, hpi, hl]; exact hP
    | none =>
      simp only [ensureDir, hpi, hl]
      refine hPset p.metadata es p.hashLinks key (newNode tsn ts .parent) ?_ ?_
        (hPnew .parent)
      · rw [node_eta p es hpi]; exact hP
      · rw [node_eta p es hpi]; exact hpd

theorem ensureDir_not_deleted (tsn : Bool) (ts : String) (key : String) (p : JsNode) :
    nodeIsDeleted (ensureDir tsn ts key p) = nodeIsDeleted p := by
  cases hpi : p.items with
  | none => simp only [ensureDir, hpi]
  | some es =>
    cases hl : es.lookup key with
    | some child => simp only [ensureDir, hpi, hl]
    | none =>
      simp only [ensureDir, hpi, hl]
      rw [nodeIsDeleted_metadata, nodeIsDeleted_metadata]
      simp

theorem createWalk_preserve (P : JsNode → Bool) (tsn : Bool) (ts : String)
    (tr : Trailing) (f : JsNode → JsNode × Option JsErr)
    (hPsub : ∀ (n : JsNode) (es : Entries) (k : String) (v : JsNode),
      P n = true → n.items = some es → es.lookup k = some v → P v = true)
    (hPset : ∀ (m : List (String × String)) (es : Entries)
      (hl : Option (List BrickRef)) (k : String) (v : JsNode),
      P (.mk m (some es) hl) = true → nodeIsDeleted (.mk m (some es) hl) = false →
      P v = true → P (.mk m (some (es.set k v)) hl) = true)
    (hPnew : ∀ tr', P (newNode tsn ts tr') = true)
    (hPvisit : ∀ (k : String) (n n₂ : JsNode),
      P n = true → walkVisit k n = some n₂ → P n₂ = true)
    (hPf : ∀ n, P n = true → nodeIsDeleted n = false → P (f n).1 = true) :
    ∀ (segs : List String) (h : JsNode), segs ≠ [] → P h = true →
      P (createWalk tsn ts tr f h segs).1 = true := by
  intro segs
  match segs with
  | [] => intro h hne _; exact absurd rfl hne
  | s :: rest =>
    intro h _ hP
    by_cases hs : s = ""
    · subst hs
      match rest with
      | [] =>
        cases hv : walkVisit "undefined" h with
        | none => simp only [createWalk, if_true, hv]; exact hP
        | some p₂ =>
          simp only [createWalk, if_true, hv]
          exact afterLoop_preserve P tsn ts tr f p₂ "undefined" hPsub hPset hPnew hPf
            (hPvisit _ h p₂ hP hv) (walkVisit_not_deleted _ h p₂ hv)
            (walkVisit_clears _ h p₂ hv)
      | t :: r =>
        cases hv : walkVisit t h with
        | none => simp only [createWalk, if_true, hv]; exact hP
        | some p₂ =>
          have hp₂ : P p₂ = true := hPvisit _ h p₂ hP hv
          have hp₂d : nodeIsDeleted p₂ = false := walkVisit_not_deleted _ h p₂ hv
          by_cases hr : r = []
          · subst hr
            simp only [createWalk, if_true, hv]
            exact afterLoop_preserve P tsn ts tr f p₂ t hPsub hPset hPnew hPf hp₂ hp₂d
              (walkVisit_clears _ h p₂ hv)
          · simp only [createWalk, if_true, hv]
            rw [if_neg hr]
            cases hpi₂ : p₂.items with
            | none =>
              exfalso
              have := walkVisit_items_isSome t h p₂ hv
              rw [hpi₂] at this
              simp at this
            | some es₂ =>
              obtain ⟨hm, hh, es₃, child, hi₃, hl₃, hchild⟩ :=
                ensureDir_spec tsn ts t p₂ es₂ hpi₂
              have hp₃ : P (ensureDir tsn ts t p₂) = true :=
                ensureDir_preserve P tsn ts t p₂ hPset hPnew hp₂ hp₂d
              have hp₃d : nodeIsDeleted (ensureDir tsn ts t p₂) = false := by
                rw [ensureDir_not_deleted]; exact hp₂d
              have hchildP : P child = true := by
                rcases hchild with hcl | hcn
                · exact hPsub p₂ es₂ t child hp₂ hpi₂ hcl
                · rw [hcn]; exact hPnew .parent
              have hres : P (createWalk tsn ts tr f child r).1 = true :=
                createWalk_preserve P tsn ts tr f hPsub hPset hPnew hPvisit hPf
                  r child hr hchildP
              rw [hi₃]
              dsimp only
              rw [hl₃]
              dsimp only
              refine hPset (ensureDir tsn ts t p₂).metadata es₃
                (ensureDir tsn ts t p₂).hashLinks t (createWalk tsn ts tr f child r).1
                ?_ ?_ hres
              · rw [node_eta _ es₃ hi₃]; exact hp₃
              · rw [node_eta _ es₃ hi₃]; exact hp₃d
    · rw [createWalk.eq_def]
      dsimp only
      rw [if_neg hs]
      cases hv : walkVisit s h with
      | none => exact hP
      | some p₂ =>
        dsimp only
        have hp₂ : P p₂ = true := hPvisit _ h p₂ hP hv
        have hp₂d : nodeIsDeleted p₂ = false := walkVisit_not_deleted _ h p₂ hv
        by_cases hr : rest = []
        · subst hr
          rw [if_pos rfl]
          exact afterLoop_preserve P tsn ts tr f p₂ s hPsub hPset hPnew hPf hp₂ hp₂d
            (walkVisit_clears _ h p₂ hv)
        · rw [if_neg hr]
          cases hpi₂ : p₂.items with
          | none =>
            exfalso
            have := walkVisit_items_isSome s h p₂ hv
            rw [hpi₂] at this
            simp at this
          | some es₂ =>
            obtain ⟨hm, hh, es₃, child, hi₃, hl₃, hchild⟩ :=
              ensureDir_spec tsn ts s p₂ es₂ hpi₂
            have hp₃ : P (ensureDir tsn ts s p₂) = true :=
              ensureDir_preserve P tsn ts s p₂ hPset hPnew hp₂ hp₂d
            have hp₃d : nodeIsDeleted (ensureDir tsn ts s p₂) = false := by
              rw [ensureDir_not_deleted]; exact hp₂d
            have hchildP : P child = true := by
              rcases hchild with hcl | hcn
              · exact hPsub p₂ es₂ s child hp₂ hpi₂ hcl
              · rw [hcn]; exact hPnew .parent
            have hres : P (createWalk tsn ts tr f child rest).1 = true :=
              createWalk_preserve P tsn ts tr f hPsub hPset hPnew hPvisit hPf
                rest child hr hchildP
            rw [hi₃]
            dsimp only
            rw [hl₃]
            dsimp only
            refine hPset (ensureDir tsn ts s p₂).metadata es₃
              (ensureDir tsn ts s p₂).hashLinks s (createWalk tsn ts tr f child rest).1
              ?_ ?_ hres
            · rw [node_eta _ es₃ hi₃]; exact hp₃
            · rw [node_eta _ es₃ hi₃]; exact hp₃d

theorem navModify_preserve (P : JsNode → Bool) (name : String) (f : JsNode → JsNode)
    (hPsub : ∀ (n : JsNode) (es : Entries) (k : String) (v : JsNode),
      P n = true → n.items = some es → es.lookup k = some v → P v = true)
    (hPset₂ : ∀ (m : List (String × String)) (es : Entries)
      (hl : Option (List BrickRef)) (k : String) (v w : JsNode),
      P (.mk m (some es) hl) = true → es.lookup k = some w →
      P v = true → P (.mk m (some (es.set k v)) hl) = true)
    (hPf : ∀ x, P x = true → P (f x) = true) :
    ∀ (segs : List String) (n n₂ : JsNode),
      P n = true → navModify name f n segs = some n₂ → P n₂ = true := by
  intro segs
  induction segs with
  | nil =>
    intro n n₂ hP hmod
    simp only [navModify] at hmod
    cases hi : n.items with
    | none => rw [hi] at hmod; simp at hmod
    | some es =>
      rw [hi] at hmod
      dsimp only at hmod
      cases hl : es.lookup name with
      | none => rw [hl] at hmod; simp at hmod
      | some x =>
        rw [hl] at hmod
        dsimp only at hmod
        simp only [Option.some.injEq] at hmod
        rw [← hmod]
        have hx : P x = true := hPsub n es name x hP hi hl
        have hP₀ : P (JsNode.mk n.metadata (some es) n.hashLinks) = true := by
          rw [node_eta n es hi]; exact hP
        exact hPset₂ n.metadata es n.hashLinks name (f x) x hP₀ hl (hPf x hx)
  | cons s rest ih =>
    intro n n₂ hP hmod
    simp only [navModify] at hmod
    by_cases hs : s = ""
    · rw [if_pos hs] at hmod
      exact ih n n₂ hP hmod
    · rw [if_neg hs] at hmod
      cases hi : n.items with
      | none => rw [hi] at hmod; simp at hmod
      | some es =>
        rw [hi] at hmod
        dsimp only at hmod
        cases hl : es.lookup s with
        | none => rw [hl] at hmod; simp at hmod
        | some child =>
          rw [hl] at hmod
          dsimp only at hmod
          by_cases hd : nodeIsDirectory child
          · rw [if_pos hd] at hmod
            rcases Option.map_eq_some'.mp hmod with ⟨c₂, hc₂, hc⟩
            rw [← hc]
            have hchild : P child = true := hPsub n es s child hP hi hl
            have hc₂P : P c₂ = true := ih child c₂ hchild hc₂
            have hP₀ : P (JsNode.mk n.metadata (some es) n.hashLinks) = true := by
              rw [node_eta n es hi]; exact hP
            exact hPset₂ n.metadata es n.hashLinks s c₂ child hP₀ hl hc₂P
          · rw [if_neg hd] at hmod
            exact ih n n₂ hP hmod

theorem modifyDeepest_preserve (P : JsNode → Bool) (f : JsNode → JsNode)
    (hPsub : ∀ (n : JsNode) (es : Entries) (k : String) (v : JsNode),
      P n = true → n.items = some es → es.lookup k = some v → P v = true)
    (hPset₂ : ∀ (m : List (String × String)) (es : Entries)
      (hl : Option (List BrickRef)) (k : String) (v w : JsNode),
      P (.mk m (some es) hl) = true → es.lookup k = some w →
      P v = true → P (.mk m (some (es.set k v)) hl) = true)
    (hPf : ∀ x, P x = true → P (f x) = true)
    (h h₂ : JsNode) (raw : List String)
    (hP : P h = true) (hmod : modifyDeepest f h raw = some h₂) : P h₂ = true := by
  by_cases hroot : normSegs raw = ["", ""]
  · simp only [modifyDeepest] at hmod
    rw [if_pos hroot] at hmod
    cases hmod
    exact hPf h hP
  · simp only [modifyDeepest] at hmod
    rw [if_neg hroot] at hmod
    exact navModify_preserve P _ f hPsub hPset₂ hPf _ h h₂ hP hmod

theorem navigate_extract (P : JsNode → Bool)
    (hPsub : ∀ (n : JsNode) (es : Entries) (k : String) (v : JsNode),
      P n = true → n.items = some es → es.lookup k = some v → P v = true) :
    ∀ (segs : List String) (h p : JsNode),
      P h = true → navigate h segs = some p → P p = true := by
  intro segs
  induction segs with
  | nil =>
    intro h p hP hnav
    simp only [navigate, Option.some.injEq] at hnav
    rw [← hnav]
    exact hP
  | cons s rest ih =>
    intro h p hP hnav
    simp only [navigate] at hnav
    by_cases hs : s = ""
    · rw [if_pos hs] at hnav
      exact ih h p hP hnav
    · rw [if_neg hs] at hnav
      cases hi : h.items with
      | none => rw [hi] at hnav; simp at hnav
      | some es =>
        rw [hi] at hnav
        dsimp only at hnav
        cases hl : es.lookup s with
        | none => rw [hl] at hnav; simp at hnav
        | some child =>
          rw [hl] at hnav
          dsimp only at hnav
          by_cases hd : nodeIsDirectory child
          · rw [if_pos hd] at hnav
            exact ih child p (hPsub h es s child hP hi hl) hnav
          · rw [if_neg hd] at hnav
            exact ih h p hP hnav

theorem getDeepest_extract (P : JsNode → Bool)
    (hPsub : ∀ (n : JsNode) (es : Entries) (k : String) (v : JsNode),
      P n = true → n.items = some es → es.lookup k = some v → P v = true)
    (h x : JsNode) (raw : List String)
    (hP : P h = true) (hget : getDeepestNode h raw = some x) : P x = true := by
  by_cases hroot : normSegs raw = ["", ""]
  · simp only [getDeepestNode] at hget
    rw [if_pos hroot] at hget
    cases hget
    exact hP
  · simp only [getDeepestNode] at hget
    rw [if_neg hroot] at hget
    cases hnav : navigate h (splitOfJoin (normSegs raw).dropLast) with
    | none => rw [hnav] at hget; simp at hget
    | some parent =>
      rw [hnav] at hget
      dsimp only at hget
      cases hpi : parent.items with
      | none => rw [hpi] at hget; simp at hget
      | some es =>
        rw [hpi] at hget
        dsimp only at hget
        exact hPsub parent es _ x
          (navigate_extract P hPsub _ h parent hP hnav) hpi hget

theorem entriesInv_lookup (k : String) (v : JsNode) :
    ∀ es : Entries, entriesInv es = true → es.lookup k = some v → nodeInv v = true := by
  intro es
  match es with
  | .nil => intro _ hl; simp [Entries.lookup] at hl
  | .cons n w r =>
    intro hinv hl
    simp only [entriesInv, Bool.and_eq_true] at hinv
    simp only [Entries.lookup] at hl
    by_cases hn : n = k
    · rw [if_pos hn] at hl
      cases hl
      exact hinv.1
    · rw [if_neg hn] at hl
      exact entriesInv_lookup k v r hinv.2 hl

theorem entriesInv_set (k : String) (v : JsNode) :
    ∀ es : Entries, entriesInv es = true → nodeInv v = true →
      entriesInv (es.set k v) = true := by
  intro es
  match es with
  | .nil => intro _ hv; simp [Entries.set, entriesInv, hv]
  | .cons n w r =>
    intro hinv hv
    simp only [entriesInv, Bool.and_eq_true] at hinv
    by_cases hn : n = k
    · simp only [Entries.set, if_pos hn, entriesInv, Bool.and_eq_true]
      exact ⟨hv, hinv.2⟩
    · simp only [Entries.set, if_neg hn, entriesInv, Bool.and_eq_true]
      exact ⟨hinv.1, entriesInv_set k v r hinv.2 hv⟩

theorem nodeInv_iff (m : List (String × String)) (i : Option Entries)
    (hl : Option (List BrickRef)) :
    nodeInv (.mk m i hl) = true ↔
      ((nodeIsDeleted (.mk m i hl) = true → contentEmpty (.mk m i hl) = true)
        ∧ (∀ es, i = some es → entriesInv es = true)) := by
  cases i with
  | none =>
    simp only [nodeInv, Bool.and_eq_true, Bool.or_eq_true, Bool.not_eq_true']
    constructor
    · rintro ⟨h1, _⟩
      refine ⟨?_, by intro es hes; cases hes⟩
      intro hd
      rcases h1 with h1 | h1
      · rw [hd] at h1; cases h1
      · exact h1
    · rintro ⟨h1, _⟩
      refine ⟨?_, trivial⟩
      by_cases hd : nodeIsDeleted (JsNode.mk m none hl) = true
      · exact Or.inr (h1 hd)
      · exact Or.inl (by simpa using hd)
  | some es =>
    simp only [nodeInv, Bool.and_eq_true, Bool.or_eq_true, Bool.not_eq_true']
    constructor
    · rintro ⟨h1, h2⟩
      refine ⟨?_, ?_⟩
      · intro hd
        rcases h1 with h1 | h1
        · rw [hd] at h1; cases h1
        · exact h1
      · intro es₀ hes₀
        cases hes₀
        exact h2
    · rintro ⟨h1, h2⟩
      refine ⟨?_, h2 es rfl⟩
      by_cases hd : nodeIsDeleted (JsNode.mk m (some es) hl) = true
      · exact Or.inr (h1 hd)
      · exact Or.inl (by simpa using hd)

theorem inv_sub (n : JsNode) (es : Entries) (k : String) (v : JsNode)
    (hP : nodeInv n = true) (hi : n.items = some es) (hl : es.lookup k = some v) :
    nodeInv v = true := by
  cases n with
  | mk m i hlk =>
    simp only [JsNode.items_mk] at hi
    subst hi
    have hes : entriesInv es = true := ((nodeInv_iff m (some es) hlk).mp hP).2 es rfl
    exact entriesInv_lookup k v es hes hl

theorem inv_set (m : List (String × String)) (es : Entries)
    (hl : Option (List BrickRef)) (k : String) (v : JsNode)
    (hP : nodeInv (.mk m (some es) hl) = true)
    (hd : nodeIsDeleted (.mk m (some es) hl) = false)
    (hv : nodeInv v = true) :
    nodeInv (.mk m (some (es.set k v)) hl) = true := by
  rcases (nodeInv_iff m (some es) hl).mp hP with ⟨_, h2⟩
  refine (nodeInv_iff m (some (es.set k v)) hl).mpr ⟨?_, ?_⟩
  · intro hdel
    exfalso
    rw [nodeIsDeleted_metadata] at hdel hd
    simp only [JsNode.metadata_mk] at hdel hd
    rw [hd] at hdel
    cases hdel
  · intro es₀ hes₀
    cases hes₀
    exact entriesInv_set k v es (h2 es rfl) hv

theorem inv_deleted_nil (m : List (String × String)) (es : Entries)
    (hl : Option (List BrickRef))
    (hP : nodeInv (.mk m (some es) hl) = true)
    (hd : nodeIsDeleted (.mk m (some es) hl) = true) : es = .nil := by
  rcases (nodeInv_iff m (some es) hl).mp hP with ⟨h1, _⟩
  have hce := h1 hd
  cases es with
  | nil => rfl
  | cons a b c => simp [contentEmpty] at hce

theorem inv_set₂ (m : List (String × String)) (es : Entries)
    (hl : Option (List BrickRef)) (k : String) (v w : JsNode)
    (hP : nodeInv (.mk m (some es) hl) = true) (hlk : es.lookup k = some w)
    (hv : nodeInv v = true) :
    nodeInv (.mk m (some (es.set k v)) hl) = true := by
  by_cases hd : nodeIsDeleted (.mk m (some es) hl) = true
  · exfalso
    have := inv_deleted_nil m es hl hP hd
    subst this
    simp [Entries.lookup] at hlk
  · exact inv_set m es hl k v hP (by simpa using hd) hv

theorem inv_new (tsn : Bool) (ts : String) (tr' : Trailing) :
    nodeInv (newNode tsn ts tr') = true := by
  cases tr' <;> cases tsn <;>
    simp [newNode, nodeInv, nodeIsDeleted, mLookup, contentEmpty, entriesInv]

theorem inv_clear (n : JsNode) (hP : nodeInv n = true) :
    nodeInv (clearDeleted n) = true := by
  cases n with
  | mk m i hl =>
    simp only [clearDeleted, JsNode.metadata_mk, JsNode.items_mk, JsNode.hashLinks_mk]
    refine (nodeInv_iff _ i hl).mpr ⟨?_, ?_⟩
    · intro hdel
      exfalso
      rw [nodeIsDeleted_metadata] at hdel
      simp only [JsNode.metadata_mk] at hdel
      rw [mLookup_delAssoc_self] at hdel
      simp at hdel
    · intro es hes
      exact ((nodeInv_iff m i hl).mp hP).2 es hes

theorem inv_visit (k : String) (n n₂ : JsNode)
    (hP : nodeInv n = true) (hv : walkVisit k n = some n₂) : nodeInv n₂ = true := by
  cases hpi : n.items with
  | none => simp [walkVisit, hpi] at hv
  | some es =>
    simp only [walkVisit, hpi, Option.some.injEq] at hv
    rw [← hv]
    have hes : entriesInv es = true := by
      cases n with
      | mk m i hlk =>
        simp only [JsNode.items_mk] at hpi
        subst hpi
        exact ((nodeInv_iff m (some es) hlk).mp hP).2 es rfl
    have hes₂ : entriesInv
        (match es.lookup k with
         | some child => es.set k (clearDeleted child)
         | none => es) = true := by
      cases hl : es.lookup k with
      | none => simpa using hes
      | some child =>
        dsimp only
        have hchild : nodeInv child = true := entriesInv_lookup k child es hes hl
        exact entriesInv_set k (clearDeleted child) es hes (inv_clear child hchild)
    refine (nodeInv_iff _ _ _).mpr ⟨?_, ?_⟩
    · intro hdel
      exfalso
      rw [nodeIsDeleted_metadata] at hdel
      simp only [JsNode.metadata_mk] at hdel
      rw [mLookup_delAssoc_self] at hdel
      simp at hdel
    · intro es₀ hes₀
      rw [Option.some.injEq] at hes₀
      rw [← hes₀]
      exact hes₂

mutual

theorem inv_cloneNode (n : JsNode) (hP : nodeInv n = true) :
    nodeInv (cloneNode n) = true := by
  cases n with
  | mk m i hl =>
    cases i with
    | none =>
      cases hl with
      | none => exact hP
      | some ls =>
        simp only [cloneNode]
        rcases (nodeInv_iff m none (some ls)).mp hP with ⟨h1, _⟩
        refine (nodeInv_iff m none (some (ls.map cloneBrick))).mpr ⟨?_, ?_⟩
        · intro hdel
          have hce := h1 (by simpa [nodeIsDeleted] using hdel)
          simp only [contentEmpty, JsNode.items_mk, JsNode.hashLinks_mk,
            Option.getD] at hce ⊢
          simp only [List.isEmpty_iff] at hce ⊢
          rw [hce]
          rfl
        · intro es hes
          cases hes
    | some es =>
      cases hl with
      | none =>
        simp only [cloneNode]
        rcases (nodeInv_iff m (some es) none).mp hP with ⟨h1, h2⟩
        refine (nodeInv_iff m (some (cloneEntries es)) none).mpr ⟨?_, ?_⟩
        · intro hdel
          have hnil : es = .nil := inv_deleted_nil m es none hP
            (by simpa [nodeIsDeleted] using hdel)
          subst hnil
          rfl
        · intro es₀ hes₀
          cases hes₀
          exact inv_cloneEntries es (h2 es rfl)
      | some ls =>
        simp only [cloneNode]
        rcases (nodeInv_iff m (some es) (some ls)).mp hP with ⟨h1, h2⟩
        refine (nodeInv_iff m (some (cloneEntries es)) (some (ls.map cloneBrick))).mpr
          ⟨?_, ?_⟩
        · intro hdel
          have hnil : es = .nil := inv_deleted_nil m es (some ls) hP
            (by simpa [nodeIsDeleted] using hdel)
          subst hnil
          rfl
        · intro es₀ hes₀
          cases hes₀
          exact inv_cloneEntries es (h2 es rfl)

theorem inv_cloneEntries (es : Entries) (hE : entriesInv es = true) :
    entriesInv (cloneEntries es) = true := by
  cases es with
  | nil => rfl
  | cons n v r =>
    simp only [entriesInv, Bool.and_eq_true] at hE
    simp only [cloneEntries, entriesInv, Bool.and_eq_true]
    exact ⟨inv_cloneNode v hE.1, inv_cloneEntries r hE.2⟩

end

theorem normSegs_ne_nil (raw : List String) : normSegs raw ≠ [] := by
  intro hnil
  rcases normSegs_shape raw with h | h | ⟨hne, _⟩
  · rw [h] at hnil; cases hnil
  · rw [h] at hnil; cases hnil
  · exact hne hnil

theorem updateTimeMetadata_not_deleted (tsn : Bool) (ts prop : String) (n : JsNode)
    (hprop : prop ≠ "deletedAt") (hd : nodeIsDeleted n = false) :
    nodeIsDeleted (updateTimeMetadata tsn ts prop n) = false := by
  cases tsn with
  | false => exact hd
  | true =>
    simp only [updateTimeMetadata, if_true]
    rw [nodeIsDeleted_metadata] at hd ⊢
    simp only [JsNode.metadata_mk]
    rw [mLookup_updAssoc_ne _ hprop]
    exact hd

theorem updateTimeMetadata_inv (tsn : Bool) (ts prop : String) (n : JsNode)
    (hprop : prop ≠ "deletedAt")
    (hP : nodeInv n = true) (hd : nodeIsDeleted n = false) :
    nodeInv (updateTimeMetadata tsn ts prop n) = true := by
  cases tsn with
  | false => exact hP
  | true =>
    cases n with
    | mk m i hl =>
      simp only [updateTimeMetadata, if_true, JsNode.metadata_mk, JsNode.items_mk,
        JsNode.hashLinks_mk]
      refine (nodeInv_iff _ i hl).mpr ⟨?_, ((nodeInv_iff m i hl).mp hP).2⟩
      intro hdel
      exfalso
      rw [nodeIsDeleted_metadata] at hdel hd
      simp only [JsNode.metadata_mk] at hdel hd
      rw [mLookup_updAssoc_ne _ hprop] at hdel
      rw [hd] at hdel
      cases hdel

theorem clearGuard_inv (n : JsNode) (hP : nodeInv n = true)
    (_hd : nodeIsDeleted n = false) :
    nodeInv (if metaTruthy (mLookup "deletedAt" n.metadata) then clearDeleted n
      else n) = true := by
  by_cases hg : metaTruthy (mLookup "deletedAt" n.metadata) = true
  · rw [if_pos hg]; exact inv_clear n hP
  · rw [if_neg (by simpa using hg)]; exact hP

theorem clearGuard_not_deleted (n : JsNode) (hd : nodeIsDeleted n = false) :
    nodeIsDeleted (if metaTruthy (mLookup "deletedAt" n.metadata) then clearDeleted n
      else n) = false := by
  by_cases hg : metaTruthy (mLookup "deletedAt" n.metadata) = true
  · rw [if_pos hg]; exact clearDeleted_not_deleted n
  · rw [if_neg (by simpa using hg)]; exact hd

theorem appendBrick_inv (tsn : Bool) (ts : String) (b : BrickRef) (n : JsNode)
    (hP : nodeInv n = true) (hd : nodeIsDeleted n = false) :
    nodeInv (appendBrick tsn ts b n).1 = true := by
  simp only [appendBrick]
  have hP₂ := updateTimeMetadata_inv tsn ts "updatedAt" n (by decide) hP hd
  have hd₂ := updateTimeMetadata_not_deleted tsn ts "updatedAt" n (by decide) hd
  cases hhl : (updateTimeMetadata tsn ts "updatedAt" n).hashLinks with
  | none => exact hP₂
  | some ls =>
    dsimp only
    cases hn : updateTimeMetadata tsn ts "updatedAt" n with
    | mk m i hlk =>
      rw [hn] at hP₂ hd₂ hhl
      simp only [JsNode.hashLinks_mk] at hhl
      subst hhl
      simp only [JsNode.metadata_mk, JsNode.items_mk]
      refine (nodeInv_iff m i _).mpr ⟨?_, ((nodeInv_iff m i (some ls)).mp hP₂).2⟩
      intro hdel
      exfalso
      rw [nodeIsDeleted_metadata] at hdel hd₂
      simp only [JsNode.metadata_mk] at hdel hd₂
      rw [hd₂] at hdel
      cases hdel

theorem deleteNode_inv (tsn : Bool) (ts : String) (x : JsNode) :
    nodeInv (deleteNode tsn ts x) = true := by
  cases x with
  | mk m i hl =>
    cases i <;> cases tsn <;> cases hl <;>
      simp [deleteNode, updateTimeMetadata, nodeIsDirectory, nodeInv, contentEmpty,
        entriesInv]

theorem truncateNode_inv (tsn : Bool) (ts : String) (x : JsNode)
    (hP : nodeInv x = true) : nodeInv (truncateNode tsn ts x) = true := by
  cases x with
  | mk m i hl =>
    cases i with
    | none =>
      cases tsn <;>
        simp [truncateNode, clearDeleted, updateTimeMetadata, nodeIsDirectory, nodeInv,
          contentEmpty, nodeIsDeleted, mLookup_delAssoc_self,
          mLookup_updAssoc_ne _ (by decide : ("updatedAt" : String) ≠ "deletedAt")]
    | some es =>
      cases tsn <;>
        simp [truncateNode, clearDeleted, updateTimeMetadata, nodeIsDirectory, nodeInv,
          contentEmpty, entriesInv, nodeIsDeleted, mLookup_delAssoc_self,
          mLookup_updAssoc_ne _ (by decide : ("updatedAt" : String) ≠ "deletedAt")]

theorem addOp_inv (ts : String) (raw : List String) (b : BrickInput) (h : JsNode)
    (hP : nodeInv h = true) : nodeInv (addOp ts raw b h).1 = true := by
  simp only [addOp]
  by_cases he : normSegs raw = [""]
  · rw [if_pos he]; exact hP
  · rw [if_neg he]
    refine createWalk_preserve nodeInv (tsOn h) ts .child _ inv_sub inv_set
      (inv_new (tsOn h) ts) inv_visit ?_ (normSegs raw) h (normSegs_ne_nil raw) hP
    intro n hn hnd
    dsimp only
    exact appendBrick_inv (tsOn h) ts (mkBrickObj b) _
      (clearGuard_inv n hn hnd) (clearGuard_not_deleted n hnd)

theorem deleteOp_inv (ts : String) (raw : List String) (h : JsNode)
    (hP : nodeInv h = true) : nodeInv (deleteOp ts raw h) = true := by
  simp only [deleteOp]
  cases hg : getDeepestNode h (normSegs raw) with
  | none => exact hP
  | some n =>
    dsimp only
    by_cases hd : nodeIsDeleted n = true
    · rw [if_pos hd]; exact hP
    · rw [if_neg hd]
      cases hmod : modifyDeepest (deleteNode (tsOn h) ts) h (normSegs raw) with
      | none => exact hP
      | some h₂ =>
        simp only [Option.getD_some]
        exact modifyDeepest_preserve nodeInv _ inv_sub inv_set₂
          (fun x _ => deleteNode_inv (tsOn h) ts x) h h₂ _ hP hmod

theorem emptyListOp_inv (ts : String) (raw : List String) (h : JsNode)
    (hP : nodeInv h = true) : nodeInv (emptyListOp ts raw h).1 = true := by
  simp only [emptyListOp]
  cases hg : getDeepestNode h raw with
  | none => exact hP
  | some n =>
    dsimp only
    cases hmod : modifyDeepest (truncateNode (tsOn h) ts) h raw with
    | none => exact hP
    | some h₂ =>
      simp only [Option.getD_some]
      exact modifyDeepest_preserve nodeInv _ inv_sub inv_set₂
        (fun x hx => truncateNode_inv (tsOn h) ts x hx) h h₂ _ hP hmod

theorem copyOp_inv (ts : String) (src dst : List String) (h : JsNode)
    (hdst : dst ≠ []) (hP : nodeInv h = true) : nodeInv (copyOp ts src dst h).1 = true := by
  simp only [copyOp]
  cases hg : getDeepestNode h src with
  | none => exact hP
  | some srcNode =>
    dsimp only
    have hsrc : nodeInv srcNode = true := getDeepest_extract nodeInv inv_sub h srcNode
      src hP hg
    refine createWalk_preserve nodeInv (tsOn h) ts _ _ inv_sub inv_set
      (inv_new (tsOn h) ts) inv_visit ?_ dst h hdst hP
    intro n hn hnd
    by_cases hdir : nodeIsDirectory srcNode = true
    · simp only [if_pos hdir]
      cases n with
      | mk m i hlk =>
        simp only [JsNode.metadata_mk, JsNode.hashLinks_mk]
        refine (nodeInv_iff _ _ _).mpr ⟨?_, ?_⟩
        · intro hdel
          exfalso
          rw [nodeIsDeleted_metadata] at hdel hnd
          simp only [JsNode.metadata_mk] at hdel hnd
          rw [hnd] at hdel
          cases hdel
        · intro es₀ hes₀
          rw [Option.some.injEq] at hes₀
          rw [← hes₀]
          cases hsi : srcNode.items with
          | none => rw [nodeIsDirectory, hsi] at hdir; simp at hdir
          | some ses =>
            have hses : entriesInv ses = true := by
              cases srcNode with
              | mk sm si shl =>
                simp only [JsNode.items_mk] at hsi
                subst hsi
                exact ((nodeInv_iff sm (some ses) shl).mp hsrc).2 ses rfl
            simp only [hsi, Option.getD_some]
            exact inv_cloneEntries ses hses
    · simp only [if_neg hdir]
      cases n with
      | mk m i hlk =>
        simp only [JsNode.metadata_mk, JsNode.items_mk]
        refine (nodeInv_iff _ _ _).mpr ⟨?_, ((nodeInv_iff m i hlk).mp hn).2⟩
        intro hdel
        exfalso
        rw [nodeIsDeleted_metadata] at hdel hnd
        simp only [JsNode.metadata_mk] at hdel hnd
        rw [hnd] at hdel
        cases hdel

/-- The operations the amended claim C4 quantifies over: add, delete,
emptyList and copy. -/
def Op.isC4Op : Op → Bool
  | .add _ _ => true
  | .del _ => true
  | .emptyL _ => true
  | .doCopy _ _ => true
  | _ => false

/-- Path arguments are genuine JavaScript splits: a split of a string
on "/" is never the empty list, and the copy destination is the one
path handed to createNodesFromPath without prior normalization. -/
def Op.pathsOk : Op → Bool
  | .doCopy _ dst => !dst.isEmpty
  | _ => true

theorem applyOp_inv (ts : String) (op : Op) (h : JsNode)
    (hok : (op.isC4Op && op.pathsOk) = true) (hP : nodeInv h = true) :
    nodeInv (applyOp ts h op) = true := by
  cases op with
  | add raw b => exact addOp_inv ts raw b h hP
  | del raw => exact deleteOp_inv ts raw h hP
  | emptyL raw => exact emptyListOp_inv ts raw h hP
  | doCopy src dst =>
    refine copyOp_inv ts src dst h ?_ hP
    simp only [Op.isC4Op, Op.pathsOk, Bool.and_eq_true] at hok
    simpa using hok.2
  | mkFolder raw => simp [Op.isC4Op] at hok
  | mkFile raw => simp [Op.isC4Op] at hok
  | replFirst raw b => simp [Op.isC4Op] at hok
  | replLast raw b => simp [Op.isC4Op] at hok
  | setMeta raw md => simp [Op.isC4Op] at hok
  | updMeta raw k v => simp [Op.isC4Op] at hok

theorem runOps_inv (l : List (String × Op)) :
    ∀ h : JsNode, nodeInv h = true →
      (∀ p ∈ l, (p.2.isC4Op && p.2.pathsOk) = true) →
      nodeInv (runOps l h) = true := by
  induction l with
  | nil => intro h hP _; exact hP
  | cons p rest ih =>
    intro h hP hops
    cases p with
    | mk ts op =>
      simp only [runOps]
      exact ih (applyOp ts h op)
        (applyOp_inv ts op h (hops (ts, op) (List.mem_cons_self _ _)) hP)
        (fun q hq => hops q (List.mem_cons_of_mem _ hq))

/-- Claim C4, counterexample.  The claim includes setMetadata and
updateMetadata among the operations that preserve the tombstone
invariant, but updateMetadata writes an arbitrary metadata key in
place without touching content: setting deletedAt on a file that holds
a brick reference produces a tombstoned node with nonempty hashLinks,
violating the invariant. -/
theorem c4_counterexample :
    nodeInv (runOps
      [("t1", .add ["a"] ⟨"c1", "h1", none, none⟩),
       ("t2", .updMeta ["a"] "deletedAt" "boom")]
      (initHeader false "t0")) = false
    ∧ ((getDeepestNode (runOps
        [("t1", .add ["a"] ⟨"c1", "h1", none, none⟩),
         ("t2", .updMeta ["a"] "deletedAt" "boom")]
        (initHeader false "t0")) ["a"]).map
          (fun n => (nodeIsDeleted n, n.hashLinks))
        = some (true, some [⟨"c1", "h1", none, none⟩])) :=
  ⟨rfl, rfl⟩

/-- Claim C4, amended: the tombstone invariant — every node with
deletedAt set has empty content (items for a directory, hashLinks for
a file) — holds after any sequence of add, delete, emptyList and copy
calls starting from a fresh BrickMap (with or without timestamping);
setMetadata and updateMetadata are excluded, since they write
caller-supplied metadata verbatim and can set deletedAt on a node with
content. -/
theorem c4_amended (pt : Bool) (ts0 : String) (l : List (String × Op))
    (hops : ∀ p ∈ l, (p.2.isC4Op && p.2.pathsOk) = true) :
    nodeInv (runOps l (initHeader pt ts0)) = true := by
  refine runOps_inv l (initHeader pt ts0) ?_ hops
  cases pt <;> simp [initHeader, nodeInv, nodeIsDeleted, mLookup, entriesInv]

/-- Witness for the amended claim C4 at a concrete sequence mixing all
four operation kinds. -/
theorem c4_amended_witness :
    nodeInv (runOps
      [("t1", .add ["d", "f"] ⟨"c1", "h1", none, none⟩),
       ("t2", .doCopy ["d"] ["e"]),
       ("t3", .del ["d", "f"]),
       ("t4", .emptyL ["e"]),
       ("t5", .del ["d"])]
      (initHeader false "t0")) = true :=
  c4_amended false "t0"
    [("t1", .add ["d", "f"] ⟨"c1", "h1", none, none⟩),
     ("t2", .doCopy ["d"] ["e"]),
     ("t3", .del ["d", "f"]),
     ("t4", .emptyL ["e"]),
     ("t5", .del ["d"])]
    (by decide)

theorem noStampsMeta_delAssoc (m : List (String × String)) (k : String)
    (hm : noStampsMeta m = true) : noStampsMeta (delAssoc m k) = true := by
  simp only [noStampsMeta, Bool.and_eq_true, Option.isNone_iff_eq_none] at hm ⊢
  refine ⟨⟨?_, ?_⟩, ?_⟩
  · by_cases hk : k = "createdAt"
    · rw [hk, mLookup_delAssoc_self]
    · rw [mLookup_delAssoc_ne _ hk]
      exact hm.1.1
  · by_cases hk : k = "updatedAt"
    · rw [hk, mLookup_delAssoc_self]
    · rw [mLookup_delAssoc_ne _ hk]
      exact hm.1.2
  · by_cases hk : k = "deletedAt"
    · rw [hk, mLookup_delAssoc_self]
    · rw [mLookup_delAssoc_ne _ hk]
      exact hm.2

theorem noStampsEntries_lookup (k : String) (v : JsNode) :
    ∀ es : Entries, noStampsEntries es = true → es.lookup k = some v →
      noStampsNode v = true := by
  intro es
  match es with
  | .nil => intro _ hl; simp [Entries.lookup] at hl
  | .cons n w r =>
    intro hinv hl
    simp only [noStampsEntries, Bool.and_eq_true] at hinv
    simp only [Entries.lookup] at hl
    by_cases hn : n = k
    · rw [if_pos hn] at hl
      cases hl
      exact hinv.1
    · rw [if_neg hn] at hl
      exact noStampsEntries_lookup k v r hinv.2 hl

theorem noStampsEntries_set (k : String) (v : JsNode) :
    ∀ es : Entries, noStampsEntries es = true → noStampsNode v = true →
      noStampsEntries (es.set k v) = true := by
  intro es
  match es with
  | .nil => intro _ hv; simp [Entries.set, noStampsEntries, hv]
  | .cons n w r =>
    intro hinv hv
    simp only [noStampsEntries, Bool.and_eq_true] at hinv
    by_cases hn : n = k
    · simp only [Entries.set, if_pos hn, noStampsEntries, Bool.and_eq_true]
      exact ⟨hv, hinv.2⟩
    · simp only [Entries.set, if_neg hn, noStampsEntries, Bool.and_eq_true]
      exact ⟨hinv.1, noStampsEntries_set k v r hinv.2 hv⟩

theorem noStamps_iff (m : List (String × String)) (i : Option Entries)
    (hl : Option (List BrickRef)) :
    noStampsNode (.mk m i hl) = true ↔
      (noStampsMeta m = true ∧ ∀ es, i = some es → noStampsEntries es = true) := by
  cases i with
  | none =>
    simp only [noStampsNode, Bool.and_eq_true]
    constructor
    · rintro ⟨h1, _⟩
      exact ⟨h1, by intro es hes; cases hes⟩
    · rintro ⟨h1, _⟩
      exact ⟨h1, trivial⟩
  | some es =>
    simp only [noStampsNode, Bool.and_eq_true]
    constructor
    · rintro ⟨h1, h2⟩
      refine ⟨h1, ?_⟩
      intro es₀ hes₀
      cases hes₀
      exact h2
    · rintro ⟨h1, h2⟩
      exact ⟨h1, h2 es rfl⟩

theorem ns_sub (n : JsNode) (es : Entries) (k : String) (v : JsNode)
    (hP : noStampsNode n = true) (hi : n.items = some es)
    (hl : es.lookup k = some v) : noStampsNode v = true := by
  cases n with
  | mk m i hlk =>
    simp only [JsNode.items_mk] at hi
    subst hi
    exact noStampsEntries_lookup k v es
      (((noStamps_iff m (some es) hlk).mp hP).2 es rfl) hl

theorem ns_not_deleted (n : JsNode) (hP : noStampsNode n = true) :
    nodeIsDeleted n = false := by
  cases n with
  | mk m i hl =>
    have hm := ((noStamps_iff m i hl).mp hP).1
    simp only [noStampsMeta, Bool.and_eq_true, Option.isNone_iff_eq_none] at hm
    rw [nodeIsDeleted_metadata]
    simp only [JsNode.metadata_mk]
    rw [hm.2]
    rfl

theorem ns_tsOn (h : JsNode) (hP : noStampsNode h = true) : tsOn h = false := by
  cases h with
  | mk m i hl =>
    have hm := ((noStamps_iff m i hl).mp hP).1
    simp only [noStampsMeta, Bool.and_eq_true, Option.isNone_iff_eq_none] at hm
    simp only [tsOn, JsNode.metadata_mk]
    rw [hm.1.1]
    rfl

theorem ns_set (m : List (String × String)) (es : Entries)
    (hl : Option (List BrickRef)) (k : String) (v : JsNode)
    (hP : noStampsNode (.mk m (some es) hl) = true)
    (_ : nodeIsDeleted (.mk m (some es) hl) = false)
    (hv : noStampsNode v = true) :
    noStampsNode (.mk m (some (es.set k v)) hl) = true := by
  rcases (noStamps_iff m (some es) hl).mp hP with ⟨h1, h2⟩
  refine (noStamps_iff m (some (es.set k v)) hl).mpr ⟨h1, ?_⟩
  intro es₀ hes₀
  cases hes₀
  exact noStampsEntries_set k v es (h2 es rfl) hv

theorem ns_set₂ (m : List (String × String)) (es : Entries)
    (hl : Option (List BrickRef)) (k : String) (v w : JsNode)
    (hP : noStampsNode (.mk m (some es) hl) = true) (_ : es.lookup k = some w)
    (hv : noStampsNode v = true) :
    noStampsNode (.mk m (some (es.set k v)) hl) = true :=
  ns_set m es hl k v hP (ns_not_deleted _ hP) hv

theorem ns_new (ts : String) (tr' : Trailing) :
    noStampsNode (newNode false ts tr') = true := by
  cases tr' <;> simp [newNode, noStampsNode, noStampsMeta, mLookup, noStampsEntries]

theorem ns_clear (n : JsNode) (hP : noStampsNode n = true) :
    noStampsNode (clearDeleted n) = true := by
  cases n with
  | mk m i hl =>
    rcases (noStamps_iff m i hl).mp hP with ⟨h1, h2⟩
    simp only [clearDeleted, JsNode.metadata_mk, JsNode.items_mk, JsNode.hashLinks_mk]
    exact (noStamps_iff _ i hl).mpr ⟨noStampsMeta_delAssoc m _ h1, h2⟩

theorem ns_visit (k : String) (n n₂ : JsNode)
    (hP : noStampsNode n = true) (hv : walkVisit k n = some n₂) :
    noStampsNode n₂ = true := by
  cases hpi : n.items with
  | none => simp [walkVisit, hpi] at hv
  | some es =>
    simp only [walkVisit, hpi, Option.some.injEq] at hv
    rw [← hv]
    have hes : noStampsEntries es = true := by
      cases n with
      | mk m i hlk =>
        simp only [JsNode.items_mk] at hpi
        subst hpi
        exact ((noStamps_iff m (some es) hlk).mp hP).2 es rfl
    have hm : noStampsMeta n.metadata = true := by
      cases n with
      | mk m i hlk => exact ((noStamps_iff m i hlk).mp hP).1
    refine (noStamps_iff _ _ _).mpr ⟨noStampsMeta_delAssoc _ _ hm, ?_⟩
    intro es₀ hes₀
    rw [Option.some.injEq] at hes₀
    rw [← hes₀]
    cases hl : es.lookup k with
    | none => simpa using hes
    | some child =>
      dsimp only
      exact noStampsEntries_set k (clearDeleted child) es hes
        (ns_clear child (noStampsEntries_lookup k child es hes hl))

theorem updateTimeMetadata_false (ts prop : String) (n : JsNode) :
    updateTimeMetadata false ts prop n = n := rfl

mutual

theorem ns_cloneNode (n : JsNode) (hP : noStampsNode n = true) :
    noStampsNode (cloneNode n) = true := by
  cases n with
  | mk m i hl =>
    rcases (noStamps_iff m i hl).mp hP with ⟨h1, h2⟩
    cases i with
    | none =>
      cases hl with
      | none => exact hP
      | some ls =>
        simp only [cloneNode]
        exact (noStamps_iff m none _).mpr ⟨h1, by intro es hes; cases hes⟩
    | some es =>
      cases hl with
      | none =>
        simp only [cloneNode]
        refine (noStamps_iff m _ none).mpr ⟨h1, ?_⟩
        intro es₀ hes₀
        cases hes₀
        exact ns_cloneEntries es (h2 es rfl)
      | some ls =>
        simp only [cloneNode]
        refine (noStamps_iff m _ _).mpr ⟨h1, ?_⟩
        intro es₀ hes₀
        cases hes₀
        exact ns_cloneEntries es (h2 es rfl)

theorem ns_cloneEntries (es : Entries) (hE : noStampsEntries es = true) :
    noStampsEntries (cloneEntries es) = true := by
  cases es with
  | nil => rfl
  | cons n v r =>
    simp only [noStampsEntries, Bool.and_eq_true] at hE
    simp only [cloneEntries, noStampsEntries, Bool.and_eq_true]
    exact ⟨ns_cloneNode v hE.1, ns_cloneEntries r hE.2⟩

end

theorem ns_clearGuard (n : JsNode) (hP : noStampsNode n = true) :
    noStampsNode (if metaTruthy (mLookup "deletedAt" n.metadata) then clearDeleted n
      else n) = true := by
  by_cases hg : metaTruthy (mLookup "deletedAt" n.metadata) = true
  · rw [if_pos hg]; exact ns_clear n hP
  · rw [if_neg (by simpa using hg)]; exact hP

theorem ns_appendBrick (ts : String) (b : BrickRef) (n : JsNode)
    (hP : noStampsNode n = true) : noStampsNode (appendBrick false ts b n).1 = true := by
  simp only [appendBrick, updateTimeMetadata_false]
  cases hhl : n.hashLinks with
  | none => exact hP
  | some ls =>
    dsimp only
    cases n with
    | mk m i hlk =>
      rcases (noStamps_iff m i hlk).mp hP with ⟨h1, h2⟩
      simp only [JsNode.metadata_mk, JsNode.items_mk]
      exact (noStamps_iff m i _).mpr ⟨h1, h2⟩

theorem ns_deleteNode (ts : String) (x : JsNode) (hP : noStampsNode x = true) :
    noStampsNode (deleteNode false ts x) = true := by
  cases x with
  | mk m i hl =>
    rcases (noStamps_iff m i hl).mp hP with ⟨h1, _⟩
    cases i with
    | none =>
      simp only [deleteNode, updateTimeMetadata_false, nodeIsDirectory,
        JsNode.items_mk, Option.isSome_none, Bool.false_eq_true, if_false,
        JsNode.metadata_mk, JsNode.hashLinks_mk]
      exact (noStamps_iff m none _).mpr ⟨h1, by intro es hes; cases hes⟩
    | some es =>
      simp only [deleteNode, updateTimeMetadata_false, nodeIsDirectory,
        JsNode.items_mk, Option.isSome_some, if_true, JsNode.metadata_mk,
        JsNode.hashLinks_mk]
      refine (noStamps_iff m _ hl).mpr ⟨h1, ?_⟩
      intro es₀ hes₀
      cases hes₀
      rfl

theorem ns_truncateNode (ts : String) (x : JsNode) (hP : noStampsNode x = true) :
    noStampsNode (truncateNode false ts x) = true := by
  have hc := ns_clear x hP
  cases hcd : clearDeleted x with
  | mk m i hl =>
    rw [hcd] at hc
    rcases (noStamps_iff m i hl).mp hc with ⟨h1, _⟩
    cases i with
    | none =>
      simp only [truncateNode, hcd, updateTimeMetadata_false, nodeIsDirectory,
        JsNode.items_mk, Option.isSome_none, Bool.false_eq_true, if_false,
        JsNode.metadata_mk, JsNode.hashLinks_mk]
      exact (noStamps_iff m none _).mpr ⟨h1, by intro es hes; cases hes⟩
    | some es =>
      simp only [truncateNode, hcd, updateTimeMetadata_false, nodeIsDirectory,
        JsNode.items_mk, Option.isSome_some, if_true, JsNode.metadata_mk,
        JsNode.hashLinks_mk]
      refine (noStamps_iff m _ _).mpr ⟨h1, ?_⟩
      intro es₀ hes₀
      cases hes₀
      rfl

theorem ns_addOp (ts : String) (raw : List String) (b : BrickInput) (h : JsNode)
    (hP : noStampsNode h = true) : noStampsNode (addOp ts raw b h).1 = true := by
  simp only [addOp]
  by_cases he : normSegs raw = [""]
  · rw [if_pos he]; exact hP
  · rw [if_neg he, ns_tsOn h hP]
    refine createWalk_preserve noStampsNode false ts .child _ ns_sub ns_set
      (ns_new ts) ns_visit ?_ (normSegs raw) h (normSegs_ne_nil raw) hP
    intro n hn _
    dsimp only
    exact ns_appendBrick ts (mkBrickObj b) _ (ns_clearGuard n hn)

theorem ns_deleteOp (ts : String) (raw : List String) (h : JsNode)
    (hP : noStampsNode h = true) : noStampsNode (deleteOp ts raw h) = true := by
  simp only [deleteOp, ns_tsOn h hP]
  cases hg : getDeepestNode h (normSegs raw) with
  | none => exact hP
  | some n =>
    dsimp only
    by_cases hd : nodeIsDeleted n = true
    · rw [if_pos hd]; exact hP
    · rw [if_neg hd]
      cases hmod : modifyDeepest (deleteNode false ts) h (normSegs raw) with
      | none => exact hP
      | some h₂ =>
        simp only [Option.getD_some]
        exact modifyDeepest_preserve noStampsNode _ ns_sub ns_set₂
          (fun x hx => ns_deleteNode ts x hx) h h₂ _ hP hmod

theorem ns_emptyListOp (ts : String) (raw : List String) (h : JsNode)
    (hP : noStampsNode h = true) : noStampsNode (emptyListOp ts raw h).1 = true := by
  simp only [emptyListOp, ns_tsOn h hP]
  cases hg : getDeepestNode h raw with
  | none => exact hP
  | some n =>
    dsimp only
    cases hmod : modifyDeepest (truncateNode false ts) h raw with
    | none => exact hP
    | some h₂ =>
      simp only [Option.getD_some]
      exact modifyDeepest_preserve noStampsNode _ ns_sub ns_set₂
        (fun x hx => ns_truncateNode ts x hx) h h₂ _ hP hmod

theorem ns_copyOp (ts : String) (src dst : List String) (h : JsNode)
    (hdst : dst ≠ []) (hP : noStampsNode h = true) :
    noStampsNode (copyOp ts src dst h).1 = true := by
  simp only [copyOp]
  cases hg : getDeepestNode h src with
  | none => exact hP
  | some srcNode =>
    dsimp only
    rw [ns_tsOn h hP]
    have hsrc : noStampsNode srcNode = true :=
      getDeepest_extract noStampsNode ns_sub h srcNode src hP hg
    refine createWalk_preserve noStampsNode false ts _ _ ns_sub ns_set
      (ns_new ts) ns_visit ?_ dst h hdst hP
    intro n hn _
    by_cases hdir : nodeIsDirectory srcNode = true
    · simp only [if_pos hdir]
      cases n with
      | mk m i hlk =>
        rcases (noStamps_iff m i hlk).mp hn with ⟨h1, _⟩
        simp only [JsNode.metadata_mk, JsNode.hashLinks_mk]
        refine (noStamps_iff m _ hlk).mpr ⟨h1, ?_⟩
        intro es₀ hes₀
        rw [Option.some.injEq] at hes₀
        rw [← hes₀]
        cases hsi : srcNode.items with
        | none => rw [nodeIsDirectory, hsi] at hdir; simp at hdir
        | some ses =>
          have hses : noStampsEntries ses = true := by
            cases srcNode with
            | mk sm si shl =>
              simp only [JsNode.items_mk] at hsi
              subst hsi
              exact ((noStamps_iff sm (some ses) shl).mp hsrc).2 ses rfl
          simp only [hsi, Option.getD_some]
          exact ns_cloneEntries ses hses
    · simp only [if_neg hdir]
      cases n with
      | mk m i hlk =>
        rcases (noStamps_iff m i hlk).mp hn with ⟨h1, h2⟩
        simp only [JsNode.metadata_mk, JsNode.items_mk]
        exact (noStamps_iff m i _).mpr ⟨h1, h2⟩

theorem ns_replaceFirstOp (ts : String) (raw : List String) (b : BrickRef) (h : JsNode)
    (hP : noStampsNode h = true) :
    noStampsNode (replaceFirstBrickOp ts raw b h).1 = true := by
  simp only [replaceFirstBrickOp]
  by_cases he : normSegs raw = [""]
  · rw [if_pos he]; exact hP
  · rw [if_neg he, ns_tsOn h hP]
    refine createWalk_preserve noStampsNode false ts .child _ ns_sub ns_set
      (ns_new ts) ns_visit ?_ (normSegs raw) h (normSegs_ne_nil raw) hP
    intro n hn _
    dsimp only
    rw [updateTimeMetadata_false]
    have hcg := ns_clearGuard n hn
    cases hhl : (if metaTruthy (mLookup "deletedAt" n.metadata) then clearDeleted n
        else n).hashLinks with
    | none => exact hcg
    | some ls =>
      cases ls with
      | nil => exact hcg
      | cons b₀ rest =>
        dsimp only
        cases hcn : (if metaTruthy (mLookup "deletedAt" n.metadata) then clearDeleted n
            else n) with
        | mk m i hlk =>
          rw [hcn] at hcg
          rcases (noStamps_iff m i hlk).mp hcg with ⟨h1, h2⟩
          simp only [JsNode.metadata_mk, JsNode.items_mk]
          exact (noStamps_iff m i _).mpr ⟨h1, h2⟩

theorem ns_replaceLastOp (ts : String) (raw : List String) (b : BrickRef) (h : JsNode)
    (hP : noStampsNode h = true) :
    noStampsNode (replaceLastBrickOp ts raw b h).1 = true := by
  simp only [replaceLastBrickOp]
  by_cases he : normSegs raw = [""]
  · rw [if_pos he]; exact hP
  · rw [if_neg he, ns_tsOn h hP]
    refine createWalk_preserve noStampsNode false ts .child _ ns_sub ns_set
      (ns_new ts) ns_visit ?_ (normSegs raw) h (normSegs_ne_nil raw) hP
    intro n hn _
    dsimp only
    rw [updateTimeMetadata_false]
    have hcg := ns_clearGuard n hn
    cases hhl : (if metaTruthy (mLookup "deletedAt" n.metadata) then clearDeleted n
        else n).hashLinks with
    | none => exact hcg
    | some ls =>
      cases ls with
      | nil => exact hcg
      | cons b₀ rest =>
        dsimp only
        cases hcn : (if metaTruthy (mLookup "deletedAt" n.metadata) then clearDeleted n
            else n) with
        | mk m i hlk =>
          rw [hcn] at hcg
          rcases (noStamps_iff m i hlk).mp hcg with ⟨h1, h2⟩
          simp only [JsNode.metadata_mk, JsNode.items_mk]
          exact (noStamps_iff m i _).mpr ⟨h1, h2⟩

theorem ns_createNodeOp (ts : String) (tr : Trailing) (raw : List String) (h : JsNode)
    (hP : noStampsNode h = true) :
    noStampsNode (createNodeOp ts tr raw h).1 = true := by
  have hwalk : noStampsNode (createWalk (tsOn h) ts tr (fun n => (n, none)) h
      (normSegs raw)).1 = true := by
    rw [ns_tsOn h hP]
    exact createWalk_preserve noStampsNode false ts tr _ ns_sub ns_set (ns_new ts)
      ns_visit (fun n hn _ => hn) (normSegs raw) h (normSegs_ne_nil raw) hP
  simp only [createNodeOp]
  split
  · exact hP
  · split
    · exact hP
    · split
      · exact hwalk
      · split
        · exact hwalk
        · split
          · exact hP
          · split
            · exact hP
            · exact hwalk

/-- The operations the claim C10 quantifies over: every mutating
operation with built-in timestamping; setMetadata and updateMetadata
are excluded since they write caller-supplied metadata verbatim rather
than machine timestamps. -/
def Op.isC10Op : Op → Bool
  | .setMeta _ _ => false
  | .updMeta _ _ _ => false
  | _ => true

theorem applyOp_ns (ts : String) (op : Op) (h : JsNode)
    (hok : (op.isC10Op && op.pathsOk) = true) (hP : noStampsNode h = true) :
    noStampsNode (applyOp ts h op) = true := by
  cases op with
  | add raw b => exact ns_addOp ts raw b h hP
  | del raw => exact ns_deleteOp ts raw h hP
  | emptyL raw => exact ns_emptyListOp ts raw h hP
  | doCopy src dst =>
    refine ns_copyOp ts src dst h ?_ hP
    simp only [Op.isC10Op, Op.pathsOk, Bool.and_eq_true] at hok
    simpa using hok.2
  | mkFolder raw => exact ns_createNodeOp ts .parent raw h hP
  | mkFile raw => exact ns_createNodeOp ts .child raw h hP
  | replFirst raw b => exact ns_replaceFirstOp ts raw b h hP
  | replLast raw b => exact ns_replaceLastOp ts raw b h hP
  | setMeta raw md => simp [Op.isC10Op] at hok
  | updMeta raw k v => simp [Op.isC10Op] at hok

theorem runOps_ns (l : List (String × Op)) :
    ∀ h : JsNode, noStampsNode h = true →
      (∀ p ∈ l, (p.2.isC10Op && p.2.pathsOk) = true) →
      noStampsNode (runOps l h) = true := by
  induction l with
  | nil => intro h hP _; exact hP
  | cons p rest ih =>
    intro h hP hops
    cases p with
    | mk ts op =>
      simp only [runOps]
      exact ih (applyOp ts h op)
        (applyOp_ns ts op h (hops (ts, op) (List.mem_cons_self _ _)) hP)
        (fun q hq => hops q (List.mem_cons_of_mem _ hq))

theorem deleteNode_false_file (ts : String) (x : JsNode)
    (hdir : nodeIsDirectory x = false) :
    deleteNode false ts x = JsNode.mk x.metadata x.items (some []) := by
  simp only [deleteNode, updateTimeMetadata_false, hdir]
  rfl

/-- Claim C10: on a BrickMap initialized with preventTimestamp, no
operation with built-in timestamping ever writes createdAt, updatedAt
or deletedAt into any node's metadata, through any sequence of add,
delete, emptyList, copy, createFolder, createFile, replaceFirstBrick
and replaceLastBrick calls; in particular delete on an existing file
node clears its hashLinks but leaves its metadata unchanged (no
deletedAt), so fileDeleted is false and fileExists is still true
afterwards. -/
theorem c10_prevent_timestamp (ts0 ts : String) (l : List (String × Op))
    (raw : List String) (h x : JsNode) :
    ((∀ p ∈ l, (p.2.isC10Op && p.2.pathsOk) = true) →
      noStampsNode (runOps l (initHeader true ts0)) = true)
    ∧ (noStampsNode h = true → getDeepestNode h raw = some x →
        nodeIsDirectory x = false →
        getDeepestNode (deleteOp ts raw h) raw
            = some (JsNode.mk x.metadata x.items (some []))
        ∧ fileDeletedOp raw (deleteOp ts raw h) = false
        ∧ fileExistsOp raw (deleteOp ts raw h) = true) := by
  constructor
  · intro hops
    refine runOps_ns l (initHeader true ts0) ?_ hops
    simp [initHeader, noStampsNode, noStampsMeta, mLookup, noStampsEntries]
  · intro hns hget hdir
    have hx : noStampsNode x = true := getDeepest_extract noStampsNode ns_sub h x raw
      hns hget
    have hxd : nodeIsDeleted x = false := ns_not_deleted x hx
    have htsn : tsOn h = false := ns_tsOn h hns
    have hg : getDeepestNode h (normSegs raw) = some x := by
      rw [getDeepestNode_normSegs]
      exact hget
    rcases getDeepest_modify (deleteNode (tsOn h) ts)
      (deleteNode_items_isSome (tsOn h) ts) h (normSegs raw) x hg with ⟨h₂, hmod, hread⟩
    have hdel : deleteOp ts raw h = h₂ := by
      simp only [deleteOp]
      rw [hg]
      dsimp only
      rw [if_neg (by simp [hxd]), hmod]
      rfl
    have hform : deleteNode (tsOn h) ts x = JsNode.mk x.metadata x.items (some []) := by
      rw [htsn]
      exact deleteNode_false_file ts x hdir
    rw [getDeepestNode_normSegs, hform] at hread
    rw [hdel]
    refine ⟨hread, ?_, ?_⟩
    · simp only [fileDeletedOp, hread]
      rw [nodeIsDeleted_metadata]
      simp only [JsNode.metadata_mk]
      rw [nodeIsDeleted_metadata] at hxd
      exact hxd
    · simp only [fileExistsOp, hread]
      rw [nodeIsDeleted_metadata]
      simp only [JsNode.metadata_mk]
      rw [nodeIsDeleted_metadata] at hxd
      rw [hxd]
      rfl

/-- Witness for claim C10: a concrete preventTimestamp map, a sequence
of operations leaving no timestamps, and the delete of an existing
file leaving it visible and not tombstoned. -/
theorem c10_prevent_timestamp_witness :
    noStampsNode (runOps
      [("t1", .add ["a", "f"] ⟨"c1", "h1", none, none⟩),
       ("t2", .mkFolder ["d"]),
       ("t3", .del ["a", "f"])]
      (initHeader true "t0")) = true
    ∧ fileDeletedOp ["a"]
        (deleteOp "t9" ["a"]
          ((addOp "t1" ["a"] ⟨"c1", "h1", none, none⟩ (initHeader true "t0")).1)) = false
    ∧ fileExistsOp ["a"]
        (deleteOp "t9" ["a"]
          ((addOp "t1" ["a"] ⟨"c1", "h1", none, none⟩ (initHeader true "t0")).1)) = true := by
  refine ⟨(c10_prevent_timestamp "t0" "t9" _ [""] (initHeader true "t0")
    (initHeader true "t0")).1 (by decide), ?_, ?_⟩
  · exact ((c10_prevent_timestamp "t0" "t9" [] ["a"]
      ((addOp "t1" ["a"] ⟨"c1", "h1", none, none⟩ (initHeader true "t0")).1)
      (JsNode.mk [] none (some [⟨"c1", "h1", none, none⟩]))).2 rfl rfl rfl).2.1
  · exact ((c10_prevent_timestamp "t0" "t9" [] ["a"]
      ((addOp "t1" ["a"] ⟨"c1", "h1", none, none⟩ (initHeader true "t0")).1)
      (JsNode.mk [] none (some [⟨"c1", "h1", none, none⟩]))).2 rfl rfl rfl).2.2

theorem head_some_ex {α : Type} (l : List α) (x : α) (hx : l.head? = some x) :
    ∃ t, l = x :: t := by
  cases l with
  | nil => cases hx
  | cons y t =>
    simp only [List.head?] at hx
    cases hx
    exact ⟨t, rfl⟩

theorem itemOf_mk_some (m : List (String × String)) (es : Entries)
    (hl : Option (List BrickRef)) (a : String) :
    itemOf (JsNode.mk m (some es) hl) a = es.lookup a := rfl

theorem itemOf_eq_of_items (p : JsNode) (es : Entries) (a : String)
    (hi : p.items = some es) : itemOf p a = es.lookup a := by
  simp [itemOf, hi]

theorem navigate_cons (n : JsNode) (s : String) (rest : List String) (hs : s ≠ "") :
    navigate n (s :: rest) =
      match itemOf n s with
      | none => none
      | some child =>
        if nodeIsDirectory child then navigate child rest else navigate n rest := by
  simp only [navigate]
  rw [if_neg hs]
  cases hi : n.items with
  | none => simp [itemOf, hi]
  | some es =>
    cases hl : es.lookup s with
    | none => simp [itemOf, hi, hl]
    | some child => simp [itemOf, hi, hl]

theorem navigate_frame (h h₃ : JsNode) (a : String) (mid : List String)
    (ha : a ≠ "") (heq : itemOf h a = itemOf h₃ a)
    (hdir : ∀ d, itemOf h₃ a = some d → nodeIsDirectory d = true) :
    navigate h (a :: mid) = navigate h₃ (a :: mid) := by
  rw [navigate_cons h a mid ha, navigate_cons h₃ a mid ha, heq]
  cases hd : itemOf h₃ a with
  | none => rfl
  | some d =>
    dsimp only
    rw [if_pos (hdir d hd), if_pos (hdir d hd)]

theorem getDeepest_frame (h h₃ : JsNode) (a : String) (relRaw : List String)
    (ha : a ≠ "") (hhead : (normSegs relRaw).head? = some a)
    (heq : itemOf h a = itemOf h₃ a)
    (hdir : ∀ d, itemOf h₃ a = some d → nodeIsDirectory d = true) :
    getDeepestNode h relRaw = getDeepestNode h₃ relRaw := by
  obtain ⟨tl, hsegs⟩ := head_some_ex _ _ hhead
  have hroot : a :: tl ≠ ["", ""] := by
    intro hc
    injection hc with h1 _
    exact ha h1
  simp only [getDeepestNode]
  rw [hsegs, if_neg hroot, if_neg hroot]
  cases tl with
  | nil =>
    have hnav : navigate h (splitOfJoin ((a :: ([] : List String)).dropLast)) = some h :=
      rfl
    have hnav₃ : navigate h₃ (splitOfJoin ((a :: ([] : List String)).dropLast)) = some h₃ :=
      rfl
    rw [hnav, hnav₃]
    dsimp only
    have hfn : (a :: ([] : List String)).getLastD "" = a := rfl
    rw [hfn]
    cases hi : h.items with
    | none =>
      cases hi₃ : h₃.items with
      | none => rfl
      | some es₃ =>
        dsimp only
        have h1 : itemOf h a = none := by simp [itemOf, hi]
        have h2 : itemOf h₃ a = es₃.lookup a := itemOf_eq_of_items h₃ es₃ a hi₃
        rw [← h2, ← heq, h1]
    | some es =>
      cases hi₃ : h₃.items with
      | none =>
        dsimp only
        have h1 : itemOf h a = es.lookup a := itemOf_eq_of_items h es a hi
        have h2 : itemOf h₃ a = none := by simp [itemOf, hi₃]
        rw [← h1, heq, h2]
      | some es₃ =>
        dsimp only
        have h1 : itemOf h a = es.lookup a := itemOf_eq_of_items h es a hi
        have h2 : itemOf h₃ a = es₃.lookup a := itemOf_eq_of_items h₃ es₃ a hi₃
        rw [← h1, ← h2, heq]
  | cons t r =>
    have hnav := navigate_frame h h₃ a ((t :: r).dropLast) ha heq hdir
    have hsp : splitOfJoin ((a :: t :: r).dropLast) = a :: (t :: r).dropLast := by
      have h1 : (a :: t :: r).dropLast = a :: (t :: r).dropLast := rfl
      rw [h1]
      simp [splitOfJoin]
    rw [hsp, hnav]

theorem walkVisit_frame (key : String) (p p₂ : JsNode) (a : String) (hab : a ≠ key)
    (hv : walkVisit key p = some p₂) : itemOf p₂ a = itemOf p a := by
  simp only [walkVisit] at hv
  cases hi : p.items with
  | none => rw [hi] at hv; simp at hv
  | some es =>
    rw [hi] at hv
    dsimp only at hv
    cases hl : es.lookup key with
    | none =>
      rw [hl] at hv
      dsimp only at hv
      cases hv
      rw [itemOf_mk_some, ← itemOf_eq_of_items p es a hi]
    | some child =>
      rw [hl] at hv
      dsimp only at hv
      cases hv
      rw [itemOf_mk_some, Entries.lookup_set_ne es (Ne.symm hab) (clearDeleted child),
        ← itemOf_eq_of_items p es a hi]

theorem afterLoop_frame (tsn : Bool) (ts : String) (tr : Trailing)
    (f : JsNode → JsNode × Option JsErr) (p : JsNode) (key a : String)
    (hab : a ≠ key) :
    itemOf (afterLoop tsn ts tr f p key).1 a = itemOf p a := by
  have hne : key ≠ a := Ne.symm hab
  simp only [afterLoop]
  cases hi : p.items with
  | none => rfl
  | some es =>
    dsimp only
    cases hl : es.lookup key with
    | some n0 =>
      dsimp only
      rw [hl]
      dsimp only
      rw [itemOf_mk_some, Entries.lookup_set_ne es hne ((f n0).1),
        ← itemOf_eq_of_items p es a hi]
    | none =>
      dsimp only
      rw [Entries.lookup_set_self es key (newNode tsn ts tr)]
      dsimp only
      rw [itemOf_mk_some,
        Entries.lookup_set_ne (es.set key (newNode tsn ts tr)) hne
          ((f (newNode tsn ts tr)).1),
        Entries.lookup_set_ne es hne (newNode tsn ts tr),
        ← itemOf_eq_of_items p es a hi]

theorem ensureDir_frame (tsn : Bool) (ts key : String) (p : JsNode) (a : String)
    (hab : a ≠ key) : itemOf (ensureDir tsn ts key p) a = itemOf p a := by
  simp only [ensureDir]
  cases hi : p.items with
  | none => rfl
  | some es =>
    dsimp only
    cases hl : es.lookup key with
    | some _ => rfl
    | none =>
      dsimp only
      rw [itemOf_mk_some, Entries.lookup_set_ne es (Ne.symm hab) (newNode tsn ts .parent),
        ← itemOf_eq_of_items p es a hi]

theorem createWalk_frame (tsn : Bool) (ts : String) (tr : Trailing)
    (f : JsNode → JsNode × Option JsErr) (p : JsNode) (b : String)
    (tail : List String) (hb : b ≠ "") (a : String) (hab : a ≠ b) :
    itemOf (createWalk tsn ts tr f p (b :: tail)).1 a = itemOf p a := by
  rw [createWalk.eq_def]
  dsimp only
  rw [if_neg hb]
  cases hv : walkVisit b p with
  | none => rfl
  | some p₂ =>
    have hp₂ : itemOf p₂ a = itemOf p a := walkVisit_frame b p p₂ a hab hv
    dsimp only
    cases tail with
    | nil =>
      rw [if_pos rfl]
      rw [afterLoop_frame tsn ts tr f p₂ b a hab, hp₂]
    | cons t r =>
      rw [if_neg (List.cons_ne_nil t r)]
      have hed : itemOf (ensureDir tsn ts b p₂) a = itemOf p₂ a :=
        ensureDir_frame tsn ts b p₂ a hab
      cases hi : (ensureDir tsn ts b p₂).items with
      | none =>
        dsimp only
        rw [hed, hp₂]
      | some es =>
        dsimp only
        cases hl : es.lookup b with
        | none =>
          dsimp only
          rw [hed, hp₂]
        | some child =>
          dsimp only
          rw [itemOf_mk_some,
            Entries.lookup_set_ne es (Ne.symm hab)
              ((createWalk tsn ts tr f child (t :: r)).1),
            ← itemOf_eq_of_items (ensureDir tsn ts b p₂) es a hi, hed, hp₂]

theorem navModify_frame_cons (name : String) (f : JsNode → JsNode) (h : JsNode)
    (b : String) (mid : List String) (hb : b ≠ "") (a : String) (hab : a ≠ b)
    (hbdir : ∀ d, itemOf h b = some d → nodeIsDirectory d = true) :
    ∀ h₂, navModify name f h (b :: mid) = some h₂ → itemOf h₂ a = itemOf h a := by
  intro h₂ hm
  simp only [navModify] at hm
  rw [if_neg hb] at hm
  cases hi : h.items with
  | none => rw [hi] at hm; simp at hm
  | some es =>
    rw [hi] at hm
    dsimp only at hm
    cases hl : es.lookup b with
    | none => rw [hl] at hm; simp at hm
    | some child =>
      rw [hl] at hm
      dsimp only at hm
      have hd : nodeIsDirectory child = true :=
        hbdir child (by rw [itemOf_eq_of_items h es b hi]; exact hl)
      rw [if_pos hd] at hm
      cases hc : navModify name f child mid with
      | none => rw [hc] at hm; simp at hm
      | some c₂ =>
        rw [hc] at hm
        simp only [Option.map_some', Option.some.injEq] at hm
        rw [← hm, itemOf_mk_some, Entries.lookup_set_ne es (Ne.symm hab) c₂,
          ← itemOf_eq_of_items h es a hi]

theorem navModify_frame_base (name : String) (f : JsNode → JsNode) (h : JsNode)
    (a : String) (hab : a ≠ name) :
    ∀ h₂, navModify name f h [""] = some h₂ → itemOf h₂ a = itemOf h a := by
  intro h₂ hm
  rw [show (navModify name f h [""] : Option JsNode) = navModify name f h [] from by
    simp [navModify]] at hm
  simp only [navModify] at hm
  cases hi : h.items with
  | none => rw [hi] at hm; simp at hm
  | some es =>
    rw [hi] at hm
    dsimp only at hm
    cases hl : es.lookup name with
    | none => rw [hl] at hm; simp at hm
    | some child =>
      rw [hl] at hm
      dsimp only at hm
      cases hm
      rw [itemOf_mk_some, Entries.lookup_set_ne es (Ne.symm hab) (f child),
        ← itemOf_eq_of_items h es a hi]

theorem deleteOp_frame (ts : String) (mutRaw : List String) (h : JsNode) (b : String)
    (hb : b ≠ "") (hmut : (normSegs mutRaw).head? = some b)
    (hcase : normSegs mutRaw = [b] ∨ ∀ d, itemOf h b = some d → nodeIsDirectory d = true)
    (a : String) (hab : a ≠ b) :
    itemOf (deleteOp ts mutRaw h) a = itemOf h a := by
  obtain ⟨tl, hsegs⟩ := head_some_ex _ _ hmut
  simp only [deleteOp]
  cases hg : getDeepestNode h (normSegs mutRaw) with
  | none => rfl
  | some n =>
    dsimp only
    by_cases hdel : nodeIsDeleted n = true
    · rw [if_pos hdel]
    · rw [if_neg hdel]
      simp only [modifyDeepest, normSegs_idem]
      rw [hsegs]
      have hroot : b :: tl ≠ ["", ""] := by
        intro hc
        injection hc with h1 _
        exact hb h1
      rw [if_neg hroot]
      cases tl with
      | nil =>
        have hfn : (b :: ([] : List String)).getLastD "" = b := rfl
        have hdj : splitOfJoin ((b :: ([] : List String)).dropLast) = [""] := rfl
        rw [hfn, hdj]
        cases hm : navModify b (deleteNode (tsOn h) ts) h [""] with
        | none => rfl
        | some h₂ =>
          simp only [Option.getD_some]
          exact navModify_frame_base b (deleteNode (tsOn h) ts) h a hab h₂ hm
      | cons t r =>
        have hbdir : ∀ d, itemOf h b = some d → nodeIsDirectory d = true := by
          rcases hcase with hone | hx
          · rw [hsegs] at hone
            injection hone with _ h2
            exact absurd h2 (List.cons_ne_nil t r)
          · exact hx
        have hsp : splitOfJoin ((b :: t :: r).dropLast) = b :: (t :: r).dropLast := by
          have h1 : (b :: t :: r).dropLast = b :: (t :: r).dropLast := rfl
          rw [h1]
          simp [splitOfJoin]
        rw [hsp]
        cases hm : navModify ((b :: t :: r).getLastD "") (deleteNode (tsOn h) ts) h
            (b :: (t :: r).dropLast) with
        | none => rfl
        | some h₂ =>
          simp only [Option.getD_some]
          exact navModify_frame_cons ((b :: t :: r).getLastD "")
            (deleteNode (tsOn h) ts) h b ((t :: r).dropLast) hb a hab hbdir h₂ hm

theorem addOp_frame (ts : String) (mutRaw : List String) (bIn : BrickInput)
    (h : JsNode) (b : String) (hb : b ≠ "")
    (hmut : (normSegs mutRaw).head? = some b) (a : String) (hab : a ≠ b) :
    itemOf (addOp ts mutRaw bIn h).1 a = itemOf h a := by
  obtain ⟨tl, hsegs⟩ := head_some_ex _ _ hmut
  have hne : normSegs mutRaw ≠ [""] := by
    rw [hsegs]
    intro hc
    injection hc with h1 _
    exact hb h1
  simp only [addOp]
  rw [if_neg hne, hsegs]
  exact createWalk_frame (tsOn h) ts .child _ h b tl hb a hab

theorem replaceFirstBrickOp_frame (ts : String) (mutRaw : List String)
    (brk : BrickRef) (h : JsNode) (b : String) (hb : b ≠ "")
    (hmut : (normSegs mutRaw).head? = some b) (a : String) (hab : a ≠ b) :
    itemOf (replaceFirstBrickOp ts mutRaw brk h).1 a = itemOf h a := by
  obtain ⟨tl, hsegs⟩ := head_some_ex _ _ hmut
  have hne : normSegs mutRaw ≠ [""] := by
    rw [hsegs]
    intro hc
    injection hc with h1 _
    exact hb h1
  simp only [replaceFirstBrickOp]
  rw [if_neg hne, hsegs]
  exact createWalk_frame (tsOn h) ts .child _ h b tl hb a hab

/-- Claim C6 (counterexample): copy does produce an independent deep
clone of the content, but path resolution after the copy can alias the
two subtrees: with a file f at the top level, copy of the path f to
the destination g succeeds, and then delete of the path g/f, a path
addressed under the destination, resolves through the file-skip
behaviour of navigate to the top-level parent and tombstones the
SOURCE entry f, so a mutation issued under dst changes the
corresponding entry under src. -/
theorem c6_counterexample :
    (copyOp "t2" ["f"] ["g"]
        ((addOp "t1" ["f"] ⟨"cs", "hl", none, none⟩ (initHeader false "t0")).1)).2 = none
    ∧ ((getDeepestNode
        ((copyOp "t2" ["f"] ["g"]
          ((addOp "t1" ["f"] ⟨"cs", "hl", none, none⟩ (initHeader false "t0")).1)).1)
        ["f"]).map nodeIsDeleted = some false)
    ∧ ((getDeepestNode
        (deleteOp "t3" ["g", "f"]
          ((copyOp "t2" ["f"] ["g"]
            ((addOp "t1" ["f"] ⟨"cs", "hl", none, none⟩ (initHeader false "t0")).1)).1))
        ["f"]).map nodeIsDeleted = some true) :=
  ⟨rfl, rfl, rfl⟩

/-- Claim C6 (amended): after copy(src, dst) the destination owns an
independent deep clone, and mutations addressed under dst leave every
entry under src unchanged PROVIDED the two subtrees are separated at
the top level and path resolution cannot skip out of the destination
subtree: when src lies under a top-level name a, dst under a distinct
top-level name b, the a-entry of the resulting header is a directory
(if present), and the mutation path normalizes to a path headed by b,
then add and replaceFirstBrick at that path leave every read under a
unchanged, and so does delete provided additionally the b-entry is a
directory (if present) or the mutation path is exactly the single
segment b.  Without the separation hypotheses the property fails (see
the counterexample). -/
theorem c6_amended (ts₁ ts₂ : String) (h h₁ : JsNode) (a b : String)
    (srcRaw dstRaw mutRaw relRaw : List String)
    (bIn : BrickInput) (brk : BrickRef)
    (ha : a ≠ "") (hb : b ≠ "") (hab : a ≠ b)
    (_hdst : (normSegs dstRaw).head? = some b)
    (_hsrcex : (getDeepestNode h srcRaw).isSome = true)
    (hcopy : h₁ = (copyOp ts₁ srcRaw dstRaw h).1)
    (hadir : ∀ d, itemOf h₁ a = some d → nodeIsDirectory d = true)
    (hmut : (normSegs mutRaw).head? = some b)
    (hrel : (normSegs relRaw).head? = some a) :
    getDeepestNode ((addOp ts₂ mutRaw bIn h₁).1) relRaw = getDeepestNode h₁ relRaw
    ∧ getDeepestNode ((replaceFirstBrickOp ts₂ mutRaw brk h₁).1) relRaw
        = getDeepestNode h₁ relRaw
    ∧ ((normSegs mutRaw = [b] ∨ ∀ d, itemOf h₁ b = some d → nodeIsDirectory d = true) →
        getDeepestNode (deleteOp ts₂ mutRaw h₁) relRaw = getDeepestNode h₁ relRaw) := by
  subst hcopy
  refine ⟨?_, ?_, ?_⟩
  · exact getDeepest_frame _ _ a relRaw ha hrel
      (addOp_frame ts₂ mutRaw bIn _ b hb hmut a hab) hadir
  · exact getDeepest_frame _ _ a relRaw ha hrel
      (replaceFirstBrickOp_frame ts₂ mutRaw brk _ b hb hmut a hab) hadir
  · intro hcase
    exact getDeepest_frame _ _ a relRaw ha hrel
      (deleteOp_frame ts₂ mutRaw _ b hb hmut hcase a hab) hadir

/-- Witness for claim C6: in the concrete copy scenario (directory x
with file x/f copied to y), add, replaceFirstBrick and delete at the
path y/g leave the reads under x unchanged. -/
theorem c6_amended_witness :
    getDeepestNode ((addOp "t3" ["y", "g"] ⟨"c2", "h2", none, none⟩ copyScenario).1)
        ["x", "f"] = getDeepestNode copyScenario ["x", "f"]
    ∧ getDeepestNode ((replaceFirstBrickOp "t3" ["y", "g"] ⟨"c3", "h3", none, none⟩
        copyScenario).1) ["x", "f"] = getDeepestNode copyScenario ["x", "f"]
    ∧ getDeepestNode (deleteOp "t3" ["y", "g"] copyScenario) ["x", "f"]
        = getDeepestNode copyScenario ["x", "f"] := by
  have hadir : ∀ d, itemOf copyScenario "x" = some d → nodeIsDirectory d = true := by
    intro d hd
    rw [show itemOf copyScenario "x" = some (JsNode.mk []
      (some (.cons "f" (.mk [] none (some [⟨"cs", "hl", none, none⟩])) .nil)) none)
      from rfl] at hd
    cases hd
    rfl
  have hbdir : ∀ d, itemOf copyScenario "y" = some d → nodeIsDirectory d = true := by
    intro d hd
    rw [show itemOf copyScenario "y" = some (JsNode.mk []
      (some (.cons "f" (.mk [] none (some [⟨"cs", "hl", none, none⟩])) .nil)) none)
      from rfl] at hd
    cases hd
    rfl
  rcases c6_amended "t2" "t3"
      ((addOp "t1" ["x", "f"] ⟨"cs", "hl", none, none⟩ (initHeader true "t0")).1)
      copyScenario "x" "y" ["x"] ["y"] ["y", "g"] ["x", "f"]
      ⟨"c2", "h2", none, none⟩ ⟨"c3", "h3", none, none⟩
      (by decide) (by decide) (by decide) rfl rfl rfl hadir rfl rfl with ⟨h1, h2, h3⟩
  exact ⟨h1, h2, h3 (Or.inr hbdir)⟩
